import Mathlib

/-!
# Verification of the bibtex parsing and author-resolution pipeline

A shallow embedding, in Lean 4, of the core of the `jschaf/bibtex` Go
repository: the token model (`token/token.go`), the expression AST
(`ast/ast.go`), the author-name resolver (`author.go`), the field fix-up and
bibtex-entry parsing (`parser/parser.go`), and the scanner (`scanner.go`).
Go slices become Lean lists, Go strings become Lean `String` manipulated
through their underlying `List Char` (so that every definition evaluates by
kernel reduction), Go's multiple return values become products, Go's
`(value, error)` pairs keep both components, and a Go `panic` or a Go `nil`
interface value is represented explicitly (`Option.none`, `Expr.nilExpr`).
Source positions are dropped except where a claim depends on them (the
`ValuePos` of `ast.Text` and the `Opener`/`Closer` of `ast.ParsedText`,
which `fixUpFields` preserves); consequently position-based diagnostics
de-duplication is not modelled and error sinks are plain message lists.
-/

namespace Bibtex

/-- String helpers over `List Char`, mirroring the Go standard library
functions used by the repository.  Lean's builtin `String.trim` and
`String.isPrefixOf` are defined by well-founded recursion and do not reduce
in the kernel, so list-based equivalents are used throughout. -/
def isWhitespaceChar (c : Char) : Bool :=
  c = ' ' || c = '\t' || c = '\n' || c = '\r'

/-- Go `strings.TrimSpace` (the repository only ever trims ASCII whitespace
produced by its own stringifier). -/
def trimString (s : String) : String :=
  (((s.data.dropWhile isWhitespaceChar).reverse.dropWhile isWhitespaceChar).reverse).asString

/-- Go `strings.HasPrefix`. -/
def hasPrefixString (p s : String) : Bool :=
  p.data.isPrefixOf s.data

def lowerChar (c : Char) : Char :=
  if 'A' ≤ c ∧ c ≤ 'Z' then Char.ofNat (c.toNat + 32) else c

/-- Go `strings.ToLower`, restricted to ASCII (the repository lowercases tag
names and `@command` names, which are ASCII). -/
def toLowerString (s : String) : String :=
  (s.data.map lowerChar).asString

/-- Go `strings.EqualFold`, restricted to ASCII. -/
def equalFold (a b : String) : Bool :=
  toLowerString a = toLowerString b

/-- `token.Token` from `token/token.go` (the revision that includes the
in-string tokens `StringBackslash`, `StringAccent` and `StringMacro`).
Constructor names avoid Lean keywords: `abbrevTok` is Go `token.Abbrev`,
`commentTok` is `token.Comment`, `stringTok` is `token.String`,
`stringMacroTok` is `token.StringMacro`. -/
inductive Tok where
  | illegal
  | eof
  | texComment
  | abbrevTok
  | commentTok
  | preambleTok
  | bibEntry
  | ident
  | stringTok
  | braceString
  | number
  | doubleQuote
  | stringLBrace
  | stringRBrace
  | stringSpace
  | stringNBSP
  | stringContents
  | stringHyphen
  | stringMath
  | stringComma
  | stringBackslash
  | stringAccent
  | stringMacroTok
  | assign
  | lparen
  | rparen
  | lbrace
  | rbrace
  | concat
  | comma
  deriving DecidableEq, Repr

/-- `Token.IsLiteral`: `literalBegin < tok && tok < literalEnd`. -/
def Tok.isLiteral : Tok → Bool
  | .ident | .stringTok | .braceString | .number => true
  | _ => false

/-- `Token.IsStringLiteral`: `stringLiteralBegin < tok && tok < stringLiteralEnd`. -/
def Tok.isStringLiteral : Tok → Bool
  | .doubleQuote | .stringLBrace | .stringRBrace | .stringSpace | .stringNBSP
  | .stringContents | .stringHyphen | .stringMath | .stringComma
  | .stringBackslash | .stringAccent | .stringMacroTok => true
  | _ => false

/-- `ast.TextDelimiter`. -/
inductive Delim where
  | quoteDelim
  | braceDelim
  deriving DecidableEq, Repr

/-- The expression AST from `ast/ast.go`.  `identE` is `ast.Ident` (name
only; the scope `Obj` pointer is dropped), `unparsedText` keeps the
delimiter kind as the `Tok` stored in `UnparsedText.Type`, `textMacro` is
`ast.TextMacro` (closing-brace position dropped), and `nilExpr` stands for a
Go `nil` value of interface type `ast.Expr` (the parser stores one when its
`parseText` falls through its type switch).  `ast.Authors`/`ast.Author` are
separate below.  Only the positions a claim depends on are kept:
`ast.Text.ValuePos` and `ast.ParsedText.Opener`/`Closer`. -/
inductive Expr where
  | badExpr
  | identE (name : String)
  | number (value : String)
  | unparsedText (type_ : Tok) (value : String)
  | parsedText (opener : Nat) (depth : Nat) (delim : Delim) (values : List Expr) (closer : Nat)
  | text (valuePos : Nat) (value : String)
  | textComma
  | textEscaped (value : String)
  | textHyphen
  | textMath (value : String)
  | textNBSP
  | textSpace (value : String)
  | textMacro (name : String) (values : List Expr)
  | concatExpr (x y : Expr)
  | nilExpr
  deriving Repr

/-- `ast.Author`.  Fields are `ast.Expr` exactly as in Go (the resolver
always stores `*ast.Text` values in them).  The Go field `Prefix` is named
`von` here because `prefix` is reserved in this development; `From`/`To`
positions are dropped. -/
structure Author where
  first : Expr
  von : Expr
  last : Expr
  suffix : Expr
  deriving Repr

/-- The per-part test shared by `Author.IsEmpty` and `Author.IsOthers` in
`ast/ast.go`: the Go `s, ok := x.(*ast.Text); ok && s.Value == want`
type-assertion pattern. -/
def isTextValued (want : String) (e : Expr) : Bool :=
  match e with
  | .text _ v => v = want
  | _ => false

/-- `Author.IsEmpty` from `ast/ast.go`: every one of the four parts must be
an `*ast.Text` whose `Value` is the empty string. -/
def Author.isEmpty (a : Author) : Bool :=
  isTextValued "" a.first && isTextValued "" a.von &&
  isTextValued "" a.last && isTextValued "" a.suffix

/-- `Author.IsOthers` from `ast/ast.go`: `First`, `Prefix` and `Suffix` are
`*ast.Text` with empty `Value` and `Last` is `*ast.Text` with `Value`
`"others"`. -/
def Author.isOthers (a : Author) : Bool :=
  isTextValued "" a.first && isTextValued "" a.von &&
  isTextValued "others" a.last && isTextValued "" a.suffix

/-! ## The author-name resolver, `author.go` -/

/-- `hasUpperPrefix` from `author.go`: decode the first code point, test
`unicode.IsUpper` (restricted here to ASCII upper-case letters; every string
the claims quantify over is ASCII).  Decoding the empty string yields
`utf8.RuneError`, which is not upper-case. -/
def hasUpperPrefix (s : String) : Bool :=
  match s.data with
  | [] => false
  | c :: _ => c.isUpper

/-- `trimSpaces` from `author.go`: `lo` counts leading `*ast.TextSpace`
nodes, `hi` is the length minus the count of trailing ones, and the slice
`xs[lo:hi]` is returned (`xs[lo:lo]`, i.e. the empty list, when
`hi <= lo`). -/
def isTextSpace : Expr → Bool
  | .textSpace _ => true
  | _ => false

def trimSpaces (xs : List Expr) : List Expr :=
  let lo := (xs.takeWhile isTextSpace).length
  let hi := xs.length - (xs.reverse.takeWhile isTextSpace).length
  if hi ≤ lo then [] else (xs.drop lo).take (hi - lo)

/-- `parseDefault` from `author.go`.  The result is `none` exactly when the
Go function panics: on the constructors its type switch does not handle
(`panic("unhandled ast.Expr value")`).  The Go source also has a
`*ast.TextAccent` case, but the `ast` package of this repository declares no
`TextAccent` node, so that case has no counterpart here.  `TextEscaped`
stringifies to a backslash followed by the escaped character. -/
def parseDefault : Expr → Option String
  | .parsedText _ _ _ vs _ => parseDefaultList vs
  | .textComma => some ","
  | .textEscaped v => some ("\\" ++ v)
  | .textHyphen => some "-"
  | .textNBSP => some " "
  | .textSpace _ => some " "
  | .textMath v => some ("$" ++ v ++ "$")
  | .text _ v => some v
  | _ => none
where parseDefaultList : List Expr → Option String
  | [] => some ""
  | x :: rest => do
    let d ← parseDefault x
    let r ← parseDefaultList rest
    return d ++ r

/-- One accepted step of `parseFirstName`/`parsePrefixName` for a token that
is not classified: a `*ast.Text` contributes its `Value`, anything else is
stringified by `parseDefault`. -/
def parseTokenVal (x : Expr) : Option String :=
  match x with
  | .text _ v => some v
  | _ => parseDefault x

/-- The stop test of `parseFirstName` from `author.go`: the current token is
an `*ast.TextSpace` and the *next* token is an `*ast.Text` whose first code
point is not upper-case ("lowercase after space means we're out of the first
name"). -/
def firstNameStops (x y : Expr) : Bool :=
  isTextSpace x &&
    (match y with | .text _ t => !hasUpperPrefix t | _ => false)

/-- The `first` loop of `resolveAuthor0` from `author.go`: stop before the
last token (it belongs to the last name), otherwise consult
`parseFirstName`.  Returns the accumulated string and the unconsumed
suffix of the run. -/
def firstLoop : List Expr → Option (String × List Expr)
  | [] => some ("", [])
  | [x] => some ("", [x])
  | x :: y :: rest =>
    if firstNameStops x y then some ("", x :: y :: rest)
    else do
      let v ← parseTokenVal x
      let (acc, r) ← firstLoop (y :: rest)
      return (v ++ acc, r)

/-- The `prefix` loop of `resolveAuthor0`/`resolveAuthorN`, driven by
`parsePrefixName` from `author.go`: an upper-case-starting `*ast.Text` stops
the prefix ("Only lowercase goes in prefix"), the last token is left for the
last name. -/
def vonLoop : List Expr → Option (String × List Expr)
  | [] => some ("", [])
  | [x] => some ("", [x])
  | x :: y :: rest =>
    match x with
    | .text _ t =>
      if hasUpperPrefix t then some ("", x :: y :: rest)
      else do
        let (acc, r) ← vonLoop (y :: rest)
        return (t ++ acc, r)
    | _ => do
      let v ← parseDefault x
      let (acc, r) ← vonLoop (y :: rest)
      return (v ++ acc, r)

/-- The `last` loop, driven by `parseLastName` from `author.go`: every
remaining token is stringified by `parseDefault`. -/
def lastLoop : List Expr → Option String
  | [] => some ""
  | x :: rest => do
    let d ← parseDefault x
    let r ← lastLoop rest
    return d ++ r

/-- `resolveAuthor0` from `author.go` (the zero-comma form
"First von Last"). -/
def resolveAuthor0 (xs : List Expr) : Option Author := do
  let (f, r1) ← firstLoop xs
  let (v, r2) ← vonLoop r1
  let l ← lastLoop r2
  return ⟨.text 0 (trimString f), .text 0 (trimString v),
          .text 0 (trimString l), .text 0 ""⟩

/-- The `first` loop of `resolveAuthorN` from `author.go`: same
`parseFirstName` steps, but with no last-token guard — the loop runs to the
end of `part2` unless `parseFirstName` stops it. -/
def firstLoopN : List Expr → Option String
  | [] => some ""
  | [x] => parseTokenVal x
  | x :: y :: rest =>
    if firstNameStops x y then some ""
    else do
      let v ← parseTokenVal x
      let acc ← firstLoopN (y :: rest)
      return (v ++ acc)

/-- `resolveAuthorN` from `author.go` (one or more commas).  `part1` is the
slice before the first comma, resolved by the prefix/last loops.  When a
second comma exists, the *single token right after the first comma*
(`parseDefault(0, xs[commas[0]+1:])`) is stringified into the suffix and
`part2` is the slice after the second comma; otherwise the suffix is empty
and `part2` is everything after the first comma. -/
def resolveAuthorN (xs : List Expr) (commas : List Nat) : Option Author := do
  let c0 := commas.headD 0
  let part1 := xs.take c0
  let (v, r1) ← vonLoop part1
  let l ← lastLoop r1
  let after1 := xs.drop (c0 + 1)
  match commas with
  | _ :: c1 :: _ => do
    let sfx ← (match after1 with | [] => some "" | a :: _ => parseDefault a)
    let part2 := xs.drop (c1 + 1)
    let f ← firstLoopN part2
    return ⟨.text 0 (trimString f), .text 0 (trimString v),
            .text 0 (trimString l), .text 0 (trimString sfx)⟩
  | _ => do
    let f ← firstLoopN after1
    return ⟨.text 0 (trimString f), .text 0 (trimString v),
            .text 0 (trimString l), .text 0 ""⟩

/-- `findCommas` from `author.go`: the offsets of all depth-0
`*ast.TextComma` nodes. -/
def findCommas (xs : List Expr) : List Nat :=
  (xs.enum.filter (fun p => match p.2 with | .textComma => true | _ => false)).map (·.1)

/-- `extractAuthor` from `author.go`. -/
def extractAuthor (xs : List Expr) : Option Author :=
  let xs := trimSpaces xs
  let commas := findCommas xs
  if commas.isEmpty then resolveAuthor0 xs else resolveAuthorN xs commas

/-- The author separator `"and"` test of `ExtractAuthors`: a top-level
`*ast.Text` whose value is exactly `authorSep`. -/
def isAuthorSep : Expr → Bool
  | .text _ t => t = "and"
  | _ => false

def emptyAuthorErr : String := "found an empty author"

/-- The loop of `ExtractAuthors` from `author.go`, with the accumulated
`authors` and the pending run `aExprs` made explicit.  The result carries
Go's two return values `(ast.Authors, error)` as a pair (Go `nil` author
list is `[]`, Go `nil` error is `none`); the outer `Option` is `none` when
the Go code panics inside `parseDefault`. -/
def extractAuthorsLoop : List Expr → List Author → List Expr →
    Option (List Author × Option String)
  | [], authors, aExprs => do
    let fin ← extractAuthor aExprs
    if fin.isEmpty then return ([], some emptyAuthorErr)
    else return (authors ++ [fin], none)
  | v :: rest, authors, aExprs =>
    if isAuthorSep v then do
      let a ← extractAuthor aExprs
      if a.isEmpty then return ([], some emptyAuthorErr)
      else extractAuthorsLoop rest (authors ++ [a]) []
    else extractAuthorsLoop rest authors (aExprs ++ [v])

/-- `ExtractAuthors` from `author.go`, applied to the `Values` of the parsed
`*ast.ParsedText` of an author or editor field. -/
def extractAuthors (values : List Expr) : Option (List Author × Option String) :=
  extractAuthorsLoop values [] []

/-! ## Projections used to compare resolved authors -/

def authorFirstValue (a : Author) : String :=
  match a.first with | .text _ v => v | _ => ""

def authorVonValue (a : Author) : String :=
  match a.von with | .text _ v => v | _ => ""

def authorLastValue (a : Author) : String :=
  match a.last with | .text _ v => v | _ => ""

def authorSuffixValue (a : Author) : String :=
  match a.suffix with | .text _ v => v | _ => ""

/-! ## The First-name rule exactly as the specification words it (for C2)

The specification claims First accepts a token when it is not a `Content`
node or starts upper-case, and stops at the first `Content` node whose first
code point is lower-case (unless it is the last token).  The stop decision
is made at the `Content` token itself, not at the whitespace before it. -/

def firstLoopSpec : List Expr → Option (String × List Expr)
  | [] => some ("", [])
  | [x] => some ("", [x])
  | x :: y :: rest =>
    match x with
    | .text _ t =>
      if hasUpperPrefix t then do
        let (acc, r) ← firstLoopSpec (y :: rest)
        return (t ++ acc, r)
      else some ("", x :: y :: rest)
    | _ => do
      let v ← parseDefault x
      let (acc, r) ← firstLoopSpec (y :: rest)
      return (v ++ acc, r)

/-- The zero-comma resolution as the specification words it (claim C2): the
spec First rule, then the mirrored Prefix rule, then Last. -/
def resolveAuthor0SpecC2 (xs : List Expr) : Option Author := do
  let (f, r1) ← firstLoopSpec xs
  let (v, r2) ← vonLoop r1
  let l ← lastLoop r2
  return ⟨.text 0 (trimString f), .text 0 (trimString v),
          .text 0 (trimString l), .text 0 ""⟩

/-- The proposition claim C2 makes: on every trimmed, comma-free run the
resolver behaves like the specification's First/Prefix/Last walk. -/
def claimC2Prop : Prop :=
  ∀ xs : List Expr, trimSpaces xs = xs → findCommas xs = [] →
    extractAuthor xs = resolveAuthor0SpecC2 xs

/-! ## The amended zero-comma walk (C2 corrected)

Same walk as the specification describes, with one change: the First phase
stops at a `Space` token whose immediate successor is a `Content` token
that does not start upper-case (the lower-case signal is detected at the
preceding space, so a lower-case `Content` token reached in any other way —
at the start of the run or directly after a non-`Content` token — is
accepted into First).  The walk is written as a three-phase state machine to
be compared with the three accumulating loops of `resolveAuthor0`. -/

def amendLast : List Expr → Option (String × String × String)
  | [] => some ("", "", "")
  | x :: rest => do
    let s ← parseDefault x
    let (f, v, l) ← amendLast rest
    return (f, v, s ++ l)

def amendVon : List Expr → Option (String × String × String)
  | [] => some ("", "", "")
  | [x] => do
    let l ← parseDefault x
    return ("", "", l)
  | x :: y :: rest =>
    match x with
    | .text _ t =>
      if hasUpperPrefix t then amendLast (x :: y :: rest)
      else do
        let (f, v, l) ← amendVon (y :: rest)
        return (f, t ++ v, l)
    | _ => do
      let s ← parseDefault x
      let (f, v, l) ← amendVon (y :: rest)
      return (f, s ++ v, l)

def amendFirst : List Expr → Option (String × String × String)
  | [] => some ("", "", "")
  | [x] => do
    let l ← parseDefault x
    return ("", "", l)
  | x :: y :: rest =>
    if firstNameStops x y then amendVon (x :: y :: rest)
    else do
      let s ← parseTokenVal x
      let (f, v, l) ← amendFirst (y :: rest)
      return (s ++ f, v, l)

def resolveAuthor0Amend (xs : List Expr) : Option Author := do
  let (f, v, l) ← amendFirst xs
  return ⟨.text 0 (trimString f), .text 0 (trimString v),
          .text 0 (trimString l), .text 0 ""⟩

/-! ## The suffix rule as claim C3 words it -/

/-- The whitespace-trimmed concatenation of the default stringification of
all tokens strictly between the first and the second depth-0 comma — what
claim C3 (and the doc comment of `resolveAuthorN`) say `Suffix` should be.
`none` when the run has fewer than two commas or a token between the commas
cannot be stringified. -/
def suffixSpecC3 (xs : List Expr) : Option String :=
  match findCommas xs with
  | c0 :: c1 :: _ =>
    (parseDefault.parseDefaultList ((xs.drop (c0 + 1)).take (c1 - c0 - 1))).map trimString
  | _ => none

/-! ## fixUpFields (C9), from `parser/parser.go` -/

/-- The all-children-are-`*ast.Text` concatenation loop inside
`fixUpFields`. -/
def allTextConcat : List Expr → Option String
  | [] => some ""
  | x :: rest =>
    match x with
    | .text _ v => (allTextConcat rest).map (fun r => v ++ r)
    | _ => none

/-- `fixUpFields` from `parser/parser.go`: only for the tag name (as passed
by the caller) `"url"`, only for a `*ast.ParsedText` value whose first child
is a `*ast.Text` starting with `"http"`, and only when every child is a
`*ast.Text`, the children collapse into a single `*ast.Text` carrying their
concatenated values and the position of the first child; everything else is
returned unchanged. -/
def fixUpFields (tag : String) (val : Expr) : Expr :=
  if tag = "url" then
    match val with
    | .parsedText o d delim vs c =>
      match vs with
      | [] => val
      | v1 :: _ =>
        match v1 with
        | .text pos1 s1 =>
          if hasPrefixString "http" s1 then
            match allTextConcat vs with
            | some cat => .parsedText o d delim [.text pos1 cat] c
            | none => val
          else val
        | _ => val
    | _ => val
  else val

/-! ## The parser, `parser/parser.go`

The parser is embedded over an explicit token stream: a list of
`(token, literal)` pairs.  The Go parser's one-token lookahead `p.tok`/
`p.lit` is the head of the list (`EOF` with an empty literal once the list
is exhausted, matching the scanner's behaviour at the end of input), and
`p.next()` drops the head.  Source positions are dropped, so `p.error`'s
same-line de-duplication and the ten-error bailout are not modelled: the
error sink is an append-only message list (a parse "has no errors" in
exactly the same runs in both models).  Comment handling in `p.next` is not
modelled; the token streams of the claims contain no `TexComment` tokens
(in-string scanning never produces one). -/

structure PState where
  toks : List (Tok × String)
  errors : List String
  deriving Repr

def PState.cur (st : PState) : Tok × String := st.toks.headD (.eof, "")

def PState.tok (st : PState) : Tok := st.cur.1

def PState.lit (st : PState) : String := st.cur.2

/-- `p.next()` (comment collection omitted, see above). -/
def PState.adv (st : PState) : PState := { st with toks := st.toks.tail }

/-- `p.error`: append the message (positions, de-duplication and the >10
bailout are not modelled). -/
def PState.adderr (st : PState) (msg : String) : PState :=
  { st with errors := st.errors ++ [msg] }

/-- The `tokens` name table of `token/token.go`, as used by
`Token.String()` in parser error messages. -/
def tokName : Tok → String
  | .illegal => "Illegal"
  | .eof => "EOF"
  | .texComment => "TexComment"
  | .abbrevTok => "Abbrev"
  | .commentTok => "Comment"
  | .preambleTok => "Preamble"
  | .bibEntry => "BibEntry"
  | .ident => "Ident"
  | .stringTok => "String"
  | .braceString => "BraceString"
  | .number => "Number"
  | .doubleQuote => "DoubleQuote"
  | .stringLBrace => "StringLBrace"
  | .stringRBrace => "StringRBrace"
  | .stringSpace => "StringSpace"
  | .stringNBSP => "NBSP"
  | .stringContents => "StringContents"
  | .stringHyphen => "Hyphen"
  | .stringMath => "StringMath"
  | .stringComma => "StringComma"
  | .stringBackslash => "StringBackslash"
  | .stringAccent => "StringAccent"
  | .stringMacroTok => "StringMacro"
  | .assign => "Assign"
  | .lparen => "LParen"
  | .rparen => "RParen"
  | .lbrace => "LBrace"
  | .rbrace => "RBrace"
  | .concat => "Concat"
  | .comma => "Comma"

/-- `p.errorExpected` at the current position: the message names the literal
for literal tokens and the quoted token name otherwise. -/
def PState.errorExpected (st : PState) (msg : String) : PState :=
  st.adderr ("expected " ++ msg ++
    (if st.tok.isLiteral then ", found " ++ st.lit
     else ", found " ++ "'" ++ tokName st.tok ++ "'"))

/-- `p.expect`: record an error when the current token differs, and advance
unconditionally ("make progress"). -/
def expectTok (t : Tok) (st : PState) : PState :=
  (if st.tok = t then st else st.errorExpected ("'" ++ tokName t ++ "'")).adv

/-- `p.expectOptional`. -/
def expectOptional (t : Tok) (st : PState) : PState :=
  if st.tok = t then st.adv else st

/-- `p.expectOne(token.LBrace, token.LParen)` as used by the declaration
parsers: the matched token, or `Illegal` after an error. -/
def expectOneBrace (st : PState) : Tok × PState :=
  if st.tok = .lbrace then (.lbrace, st.adv)
  else if st.tok = .lparen then (.lparen, st.adv)
  else (.illegal, (st.errorExpected "one of ['LBrace', 'LParen']").adv)

/-- `p.expectCloser`. -/
def expectCloser (opener : Tok) (st : PState) : PState :=
  if opener = .lbrace then expectTok .rbrace st
  else if opener = .lparen then expectTok .rparen st
  else st.adderr ("no closing delimiter for " ++ tokName opener)

/-- `p.advance(to)`: drop tokens until one is in the synchronizing set or
`EOF` (the `syncPos`/`syncCnt` progress counters are position bookkeeping
and are not modelled). -/
def advanceAux (sync : List Tok) : List (Tok × String) → List (Tok × String)
  | [] => []
  | (t, l) :: rest => if t ∈ sync then (t, l) :: rest else advanceAux sync rest

def PState.advanceTo (st : PState) (sync : List Tok) : PState :=
  { st with toks := advanceAux sync st.toks }

/-- The `stmtStart` synchronizing set. -/
def stmtStart : List Tok := [.abbrevTok, .commentTok, .preambleTok, .bibEntry, .ident]

def fuelErr : String := "parser out of fuel"

/-- The literal-collection loop of `parseMacroURL`: concatenate literals
until a `StringRBrace` or `StringSpace` token (fuelled: the Go loop does not
terminate if neither ever arrives). -/
def collectURL : Nat → PState → String → String × PState
  | 0, st, acc => (acc, st.adderr fuelErr)
  | fuel + 1, st, acc =>
    if st.tok = .stringRBrace ∨ st.tok = .stringSpace then (acc, st)
    else collectURL fuel st.adv (acc ++ st.lit)

/-- `parseMacroURL` from `parser/parser.go`: consume the macro token, expect
`StringLBrace`, collect one opaque literal run, optionally skip one
`StringSpace`, and require — without consuming — a closing `StringRBrace`.
The single collected run becomes the macro's one `Text` argument. -/
def parseMacroURL (fuel : Nat) (name : String) (st : PState) : Expr × PState :=
  let st1 := expectTok .stringLBrace st.adv
  let (sb, st2) := collectURL fuel st1 ""
  let st3 := if st2.tok = .stringSpace then st2.adv else st2
  let st4 := if st3.tok = .stringRBrace then st3
    else st3.errorExpected ("'" ++ tokName .stringRBrace ++ "'")
  (.textMacro name [.text 0 sb], st4)

mutual

/-- `parser.parseText` from `parser/parser.go`.  Each simple token becomes
its Text-family node and one `p.next()` runs after the switch; a
`StringLBrace` opens the recursive case collecting values until the matching
`StringRBrace` into a `ParsedText` at the given depth (children are parsed
at `depth + 1`); `Illegal` yields a `BadExpr`; any other token (`EOF`,
`StringRBrace`, `StringAccent`, …) takes the default arm, which records
"unknown text type" and leaves the Go result variable at its zero value —
`nil`, embedded as `Expr.nilExpr`.  The fuel only bounds loops that do not
terminate in Go either (e.g. unterminated input); running out of fuel
records `fuelErr`, so a fuel-starved run never counts as an error-free
parse. -/
def parseText (fuel : Nat) (depth : Nat) (st : PState) : Expr × PState :=
  match fuel with
  | 0 => (.badExpr, st.adderr fuelErr)
  | fuel + 1 =>
    match st.tok with
    | .stringMath => (.textMath st.lit, st.adv)
    | .stringHyphen => (.textHyphen, st.adv)
    | .stringNBSP => (.textNBSP, st.adv)
    | .stringContents => (.text 0 st.lit, st.adv)
    | .stringSpace => (.textSpace st.lit, st.adv)
    | .stringComma => (.textComma, st.adv)
    | .stringMacroTok =>
      if st.lit = "url" ∨ st.lit = "href" then
        let (m, st') := parseMacroURL fuel st.lit st
        (m, st'.adv)
      else (.textMacro st.lit [], st.adv)
    | .stringBackslash => (.textEscaped (st.lit.drop 1), st.adv)
    | .illegal => (.badExpr, st.adv)
    | .stringLBrace =>
      let st1 := st.adv
      match parseTextLoop fuel depth st1 [] with
      | (.error bad, st2) => (bad, st2.adv)
      | (.ok values, st2) => (.parsedText 0 depth .braceDelim values 0, st2.adv)
    | t => (.nilExpr, (st.adderr ("unknown text type: " ++ tokName t)).adv)

/-- The value-collection loop of `parseText`'s recursive case: parse
children at `depth + 1` until a `StringRBrace`; a `BadExpr` child
short-circuits (`.error`), the extra `p.next()` and the return of the bad
node happen in `parseText` above. -/
def parseTextLoop (fuel : Nat) (depth : Nat) (st : PState) (values : List Expr) :
    Except Expr (List Expr) × PState :=
  match fuel with
  | 0 => (.ok values, st.adderr fuelErr)
  | fuel + 1 =>
    if st.tok = .stringRBrace then (.ok values, st)
    else
      match parseText fuel (depth + 1) st with
      | (.badExpr, st') => (.error .badExpr, st')
      | (child, st') => parseTextLoop fuel depth st' (values ++ [child])

end

/-- The value-collection loop of `parseStringLiteral`'s quote case: children
at depth 1 until the closing `DoubleQuote`, with an explicit `EOF` check;
children are appended unconditionally (even `BadExpr` or the `nil`
placeholder). -/
def parseQuoteLoop (fuel : Nat) (st : PState) (values : List Expr) :
    Except Expr (List Expr) × PState :=
  match fuel with
  | 0 => (.ok values, st.adderr fuelErr)
  | fuel + 1 =>
    if st.tok = .doubleQuote then (.ok values, st)
    else if st.tok = .eof then (.error .badExpr, st.errorExpected "double quote")
    else
      let (child, st') := parseText fuel 1 st
      parseQuoteLoop fuel st' (values ++ [child])

/-- `parser.parseStringLiteral` from `parser/parser.go`: a `DoubleQuote`
opens a depth-0 quote-delimited `ParsedText` whose children are parsed at
depth 1; a `StringLBrace` delegates to `parseText` at depth 0; anything else
records an error, advances to the next statement start, and yields a
`BadExpr`. -/
def parseStringLiteral (fuel : Nat) (st : PState) : Expr × PState :=
  match st.tok with
  | .doubleQuote =>
    match parseQuoteLoop fuel st.adv [] with
    | (.error bad, st') => (bad, st')
    | (.ok values, st') => (.parsedText 0 0 .quoteDelim values 0, st'.adv)
  | .stringLBrace => parseText fuel 0 st
  | _ => (.badExpr, ((st.errorExpected "string literal").advanceTo stmtStart))

/-- The quoted-literal collection loop of `parseURLStringLiteral`:
concatenate raw literals until the closing `DoubleQuote`, with an explicit
`EOF` check (`none` is the early `BadExpr` return). -/
def urlQuoteCollect : Nat → PState → String → Option String × PState
  | 0, st, acc => (some acc, st.adderr fuelErr)
  | fuel + 1, st, acc =>
    if st.tok = .doubleQuote then (some acc, st)
    else if st.tok = .eof then (none, st.errorExpected "double quote")
    else urlQuoteCollect fuel st.adv (acc ++ st.lit)

/-- `parser.parseURLStringLiteral` from `parser/parser.go`. -/
def parseURLStringLiteral (fuel : Nat) (st : PState) : Expr × PState :=
  match st.tok with
  | .doubleQuote =>
    let st1 := st.adv
    if st1.tok = .stringMacroTok then
      let (url, st2) := parseMacroURL fuel st1.lit st1
      let st3 := expectTok .stringRBrace st2
      let st4 := expectTok .doubleQuote st3
      (.parsedText 0 0 .quoteDelim [url] 0, st4)
    else
      match urlQuoteCollect fuel st1 "" with
      | (none, st2) => (.badExpr, st2)
      | (some sb, st2) => (.text 0 sb, expectTok .doubleQuote st2)
  | .stringLBrace => parseText fuel 0 st
  | _ => (.badExpr, ((st.errorExpected "string literal").advanceTo stmtStart))

/-- `parser.parseIdent`: an `Ident` or `Number` token yields its literal
("Bibtex cite keys may be all numbers, but tag keys may not. Allow either
here and check one level up."); otherwise `expect(token.Ident)` error
handling runs and the placeholder name is `"_"`. -/
def parseIdent (st : PState) : String × PState :=
  match st.tok with
  | .ident | .number => (st.lit, st.adv)
  | _ => ("_", expectTok .ident st)

/-- `parser.parseBasicLit`: string and brace-string literals stay unparsed,
numbers and identifiers map to their nodes; the default arm records an error
and leaves the Go result at `nil` without consuming a token. -/
def parseBasicLit (st : PState) : Expr × PState :=
  match st.tok with
  | .braceString | .stringTok => (.unparsedText st.tok st.lit, st.adv)
  | .number => (.number st.lit, st.adv)
  | .ident =>
    let (name, st') := parseIdent st
    (.identE name, st')
  | _ => (.nilExpr, st.errorExpected "literal: number or string")

/-- `parser.parseExpr`: a literal (possibly chained right-associatively with
`#` into `ConcatExpr`), a string literal (deep parse), or an error with a
`BadExpr` and one consumed token. -/
def parseExpr : Nat → PState → Expr × PState
  | 0, st => (.badExpr, st.adderr fuelErr)
  | fuel + 1, st =>
    if st.tok.isLiteral then
      let (x, st1) := parseBasicLit st
      if st1.tok = .concat then
        let (y, st2) := parseExpr fuel st1.adv
        (.concatExpr x y, st2)
      else (x, st1)
    else if st.tok.isStringLiteral then parseStringLiteral (fuel + 1) st
    else (.badExpr, (st.errorExpected "literal: number or string").adv)

/-- `isValidTagName` from `parser/parser.go`: the first byte must be an
ASCII letter.  (Go indexes `key.Name[0]` and would panic on an empty name;
`parseIdent` never produces one.) -/
def isValidTagName (name : String) : Bool :=
  match name.data with
  | [] => false
  | ch :: _ => ('a' ≤ ch ∧ ch ≤ 'z') ∨ ('A' ≤ ch ∧ ch ≤ 'Z')

/-- The value stored for a tag by `parseBibDecl`'s tag branch:
`fixVal := fixUpFields(key.Name, val)` — note that the *raw* name as
written in source is passed, while the stored tag `Name` is lowercased
separately. -/
def storedTagValue (rawName : String) (val : Expr) : Expr :=
  fixUpFields rawName val

/-- The result of `parser.parseBibDecl`: entry type, primary citation key,
extra keys, and the tags as `(Name, RawName, Value)` with
`Name = lowercase(RawName)`. -/
structure BibDecl where
  type_ : String
  key : Option String
  extraKeys : List String
  tags : List (String × String × Expr)
  deriving Repr

def tagKeyErr : String := "tag keys must not start with a number"

/-- The entry-body loop of `parseBibDecl`: while the current token is an
`Ident` or `Number`, parse it; if `=` follows it is a tag name (which must
start with a letter, else `tagKeyErr` is recorded) with a value parsed by
`parseURLStringLiteral` for a raw `url` name followed by a string-literal
token, and by `parseExpr` otherwise; if `,` then follows, the parsed name
becomes the primary key (first time) or an extra key. -/
def bibKeyLoop (fuel : Nat) (st : PState) (bibKey : Option String)
    (extraKeys : List String) (tags : List (String × String × Expr)) :
    (Option String × List String × List (String × String × Expr)) × PState :=
  match fuel with
  | 0 => ((bibKey, extraKeys, tags), st.adderr fuelErr)
  | fuel + 1 =>
    if st.tok = .ident ∨ st.tok = .number then
      let (keyName, st1) := parseIdent st
      let (tags', st2) :=
        if st1.tok = .assign then
          let st2a := if isValidTagName keyName then st1 else st1.adderr tagKeyErr
          let st2b := st2a.adv
          let (val, st2c) :=
            if keyName = "url" ∧ st2b.tok.isStringLiteral then
              parseURLStringLiteral fuel st2b
            else parseExpr fuel st2b
          (tags ++ [(toLowerString keyName, keyName, storedTagValue keyName val)], st2c)
        else (tags, st1)
      if st2.tok = .comma then
        match bibKey with
        | none => bibKeyLoop fuel st2.adv (some keyName) extraKeys tags'
        | some k => bibKeyLoop fuel st2.adv (some k) (extraKeys ++ [keyName]) tags'
      else bibKeyLoop fuel st2 bibKey extraKeys tags'
    else ((bibKey, extraKeys, tags), st)

/-- `parser.parseBibDecl` from `parser/parser.go`. -/
def parseBibDecl (fuel : Nat) (st : PState) : BibDecl × PState :=
  let entryType := st.lit.drop 1
  let st1 := expectTok .bibEntry st
  let (opener, st2) := expectOneBrace st1
  let ((bibKey, extraKeys, tags), st3) := bibKeyLoop fuel st2 none [] []
  let st4 := expectCloser opener st3
  let st5 := expectOptional .comma st4
  (⟨entryType, bibKey, extraKeys, tags⟩, st5)

/-- Run `parseBibDecl` on a fresh token stream with enough fuel (each loop
iteration consumes at least one token). -/
def parseBibDeclRun (toks : List (Tok × String)) : BibDecl × PState :=
  parseBibDecl (toks.length + 1) ⟨toks, []⟩

/-! ## The structural invariant of deep-parsed text (claim C5) -/

/-- The Text-family nodes of the specification: `Text`, `TextSpace`,
`TextComma`, `TextHyphen`, `TextNBSP`, `TextMath`, `TextEscaped`,
`TextMacro`. -/
def isTextFamily : Expr → Bool
  | .text _ _ | .textSpace _ | .textComma | .textHyphen | .textNBSP
  | .textMath _ | .textEscaped _ | .textMacro _ _ => true
  | _ => false

mutual

/-- `parsedTextInv d e`: `e` is a `ParsedText` whose `Depth` field is `d`
and each of whose direct children is a Text-family node or a nested
`ParsedText` at depth `d + 1` satisfying the same invariant. -/
def parsedTextInv : Nat → Expr → Bool
  | d, .parsedText _ dChild _ vs _ => (dChild = d) && parsedTextInvList (d + 1) vs
  | _, _ => false

def parsedTextInvList : Nat → List Expr → Bool
  | _, [] => true
  | d, v :: rest => (isTextFamily v || parsedTextInv d v) && parsedTextInvList d rest

end

/-- No `Illegal` token in a stream.  The scanner only emits `Illegal` along
with a diagnostic through the shared error sink, so an error-free parse of
real input never sees one. -/
def noIllegal (toks : List (Tok × String)) : Prop :=
  ∀ p ∈ toks, p.1 ≠ Tok.illegal

/-! ## The scanner, `scanner.go`

The scanner is embedded functionally: the mutable cursor over `s.src`
becomes the list of remaining characters (the current character `s.ch` is
the head; `eof` is the empty list), and each call to `Scan` returns the
token, its literal, the next scanner state, the remaining input, and the
diagnostics it reported.  The character-level diagnostics of `s.next()`
(NUL, invalid UTF-8, a stray byte-order mark) are not modelled — theorems
about diagnostics exclude those characters by hypothesis.  `unicode.IsLetter`
beyond ASCII (used only to extend `@command` names) is approximated as
ASCII-only.  The one reachable panic (`scanSpecialCharStringAccent` indexing
past the buffer after `\c<space>` at end of input) makes the scan return
`none`. -/

def nulChar : Char := Char.ofNat 0
def quoteChar : Char := Char.ofNat 34
def apostropheChar : Char := Char.ofNat 39
def backquoteChar : Char := Char.ofNat 0x60
def lbraceChar : Char := Char.ofNat 0x7b
def rbraceChar : Char := Char.ofNat 0x7d
def bomChar : Char := Char.ofNat 0xFEFF
/-- Go `string(rune(-1))`: the replacement character. -/
def eofLit : String := (Char.ofNat 0xFFFD).toString
/-- `s.endQuoteCh`'s zero value: not inside a string. -/
def noQuoteCh : Char := Char.ofNat 0

/-- The scanner state: `s.prev`, `s.endQuoteCh`, `s.braceDepth` and the
`ScanStrings` bit of `s.mode` (`ScanComments` is never read by this
scanner).  `prev`'s zero value is `token.Illegal`. -/
structure SState where
  prev : Tok
  endQuoteCh : Char
  braceDepth : Int
  scanStrings : Bool
  deriving Repr

/-- The result of one `Scan` call. -/
structure ScanRes where
  tok : Tok
  lit : String
  state : SState
  rest : List Char
  errs : List String
  deriving Repr

def isDecimalChar (c : Char) : Bool := '0' ≤ c ∧ c ≤ '9'

def isAsciiLetterChar (c : Char) : Bool :=
  ('a' ≤ c ∧ c ≤ 'z') ∨ ('A' ≤ c ∧ c ≤ 'Z')

/-- `isLetter` from `scanner.go` (non-ASCII `unicode.IsLetter` approximated
as false; only `@command` names are affected). -/
def isLetterGo (c : Char) : Bool := isAsciiLetterChar c || c = '_'

/-- `IsName` from `scanner.go`: a valid bibtex cite character. -/
def isNameChar (c : Char) : Bool :=
  ('a' ≤ c ∧ c ≤ 'z') || ('A' ≤ c ∧ c ≤ 'Z') || ('0' ≤ c ∧ c ≤ '9') ||
  c = '_' || c = '-' || c = '/' || c = '!' || c = '$' || c = '&' ||
  c = '*' || c = '+' || c = '.' || c = ':' || c = ';' || c = '<' ||
  c = '>' || c = '?' || c = '[' || c = ']' || c = '^' ||
  c = backquoteChar || c = '|'

/-- `scanIdent`. -/
def scanIdentGo (cs : List Char) : String × List Char :=
  ((cs.takeWhile isNameChar).asString, cs.dropWhile isNameChar)

/-- `scanNumber`. -/
def scanNumberGo (cs : List Char) : String × List Char :=
  ((cs.takeWhile isDecimalChar).asString, cs.dropWhile isDecimalChar)

/-- `scanCommand`, entered with the `@` consumed.  The Go code calls
`s.next()` once before its letter check, so the first character after the
`@` joins the command unchecked and the check applies to the second. -/
def scanCommandGo (cs : List Char) : String × List Char × List String :=
  match cs with
  | [] => ("@", [], ["expected letter after @ for a command"])
  | c1 :: rest =>
    let errs := match rest with
      | [] => ["expected letter after @ for a command"]
      | c2 :: _ => if isLetterGo c2 then [] else ["expected letter after @ for a command"]
    ("@" ++ (c1 :: rest.takeWhile isLetterGo).asString, rest.dropWhile isLetterGo, errs)

/-- `scanTexComment`, entered with the `%` consumed: the comment text runs
to (and excludes) the newline. -/
def scanTexCommentGo (cs : List Char) : String × List Char :=
  (("%".data ++ cs.takeWhile (fun c => c ≠ '\n')).asString,
   cs.dropWhile (fun c => c ≠ '\n'))

def dquoteNotTermErr : String := "string literal in double quotes not terminated"
def braceNotTermErr : String := "string literal in braces not terminated"

mutual

/-- `scanString` (opaque double-quoted literal), entered after the opening
quote; `consumed` accumulates every character the Go cursor has passed, so
the literal `src[offs : s.offset-1]` is `consumed.dropLast` both when the
closing quote is consumed and at the end-of-input error. -/
def scanStringGo (fuel : Nat) (consumed : List Char) (cs : List Char) :
    List Char × List Char × List String :=
  match fuel with
  | 0 => (consumed, cs, ["scanner out of fuel"])
  | fuel + 1 =>
    match cs with
    | [] => (consumed, [], [dquoteNotTermErr])
    | c :: rest =>
      if c = quoteChar then (consumed ++ [c], rest, [])
      else if c = lbraceChar then
        let (consumed2, rest2, errs2) := scanBraceStringGo fuel (consumed ++ [c]) rest
        let (consumed3, rest3, errs3) := scanStringGo fuel consumed2 rest2
        (consumed3, rest3, errs2 ++ errs3)
      else scanStringGo fuel (consumed ++ [c]) rest

/-- `scanBraceString` (opaque brace-delimited literal), entered after the
opening brace.  On a nested `{` the Go code calls `s.next()` once more
before recursing, consuming one character unexamined. -/
def scanBraceStringGo (fuel : Nat) (consumed : List Char) (cs : List Char) :
    List Char × List Char × List String :=
  match fuel with
  | 0 => (consumed, cs, ["scanner out of fuel"])
  | fuel + 1 =>
    match cs with
    | [] => (consumed, [], [braceNotTermErr])
    | c :: rest =>
      if c = rbraceChar then (consumed ++ [c], rest, [])
      else if c = lbraceChar then
        match rest with
        | [] =>
          let (consumed2, rest2, errs2) := scanBraceStringGo fuel (consumed ++ [c]) []
          let (consumed3, rest3, errs3) := scanBraceStringGo fuel consumed2 rest2
          (consumed3, rest3, errs2 ++ errs3)
        | c2 :: rest2 =>
          let (consumed3, rest3, errs3) := scanBraceStringGo fuel (consumed ++ [c, c2]) rest2
          let (consumed4, rest4, errs4) := scanBraceStringGo fuel consumed3 rest3
          (consumed4, rest4, errs3 ++ errs4)
      else scanBraceStringGo fuel (consumed ++ [c]) rest

end

/-- `isSpecialStringChar` (end of input, handled by the callers on an empty
list, is also special in Go). -/
def isSpecialStringChar (st : SState) (c : Char) : Bool :=
  if c = quoteChar then st.braceDepth = 0 && st.endQuoteCh = quoteChar
  else c = '$' || c = lbraceChar || c = rbraceChar || c = ',' || c = '~' ||
    c = '\\' || c = '\n' || c = '\r' || c = ' ' || c = '\t'

def mathNotTermErr : String := "math in string literal not terminated"

/-- `scanStringMath`, entered after the opening `$`; `acc` is the text
consumed so far (the error literal `src[offs-1 : s.offset]` re-includes the
opening dollar).  A backslash consumes the following character
unexamined. -/
def scanStringMathGo (acc : List Char) : List Char → Tok × String × List Char × List String
  | [] => (.illegal, ("$".data ++ acc).asString, [], [mathNotTermErr])
  | '\n' :: rest => (.illegal, ("$".data ++ acc).asString, '\n' :: rest, [mathNotTermErr])
  | '\\' :: [] => (.illegal, ("$".data ++ acc ++ ['\\']).asString, [], [mathNotTermErr])
  | '\\' :: c2 :: rest => scanStringMathGo (acc ++ ['\\', c2]) rest
  | c :: rest =>
    if c = '$' then (.stringMath, acc.asString, rest, [])
    else scanStringMathGo (acc ++ [c]) rest

def accentSyntaxErr : String := "malformed accent sequence"
def macroNameEmptyErr : String := "expected macro name after backslash, got nothing"
def macroNameAsciiErr : String := "expected command name to only contain ascii letters"

/-- `scanSpecialCharStringAccent`, entered with the accent marker `m` as the
current character (the backslash already consumed).  The `\m letter` form
with nothing after the space indexes past the source buffer in Go: `none`
models that panic. -/
def scanAccentGo (m : Char) (cs : List Char) :
    Option (Tok × String × List Char × List String) :=
  match cs with
  | [] => some (.illegal, "", [], [accentSyntaxErr])
  | c :: rest =>
    if c = lbraceChar then
      match rest with
      | [] => some (.illegal, "", [], [accentSyntaxErr])
      | l :: rest2 =>
        if isAsciiLetterChar l then
          match rest2 with
          | [] => some (.illegal, "", [], [accentSyntaxErr])
          | r :: rest3 =>
            if r = rbraceChar then
              some (.stringAccent, ('\\' :: m :: lbraceChar :: l :: [rbraceChar]).asString,
                rest3, [])
            else some (.illegal, "", r :: rest3, [accentSyntaxErr])
        else some (.illegal, "", l :: rest2, [accentSyntaxErr])
    else if c = ' ' then
      match rest with
      | [] => none
      | l :: rest2 => some (.stringAccent, ('\\' :: m :: [l]).asString, rest2, [])
    else
      if isAsciiLetterChar c then some (.stringAccent, ('\\' :: m :: [c]).asString, rest, [])
      else some (.illegal, "", c :: rest, [accentSyntaxErr])

/-- The accent markers of `token.Accent`. -/
def isAccentMarker (c : Char) : Bool :=
  c = apostropheChar || c = 'c' || c = '^' || c = '.' ||
  c = backquoteChar || c = '~' || c = quoteChar

/-- `scanStringEscape`, entered after the backslash. -/
def scanStringEscapeGo (st : SState) (cs : List Char) :
    Option (Tok × String × List Char × List String) :=
  match cs with
  | [] => some (.illegal, "", [], [macroNameEmptyErr])
  | c :: rest =>
    if c = '\\' || c = '$' || c = '&' || c = '%' || c = lbraceChar ||
        c = rbraceChar || c = '_' then
      some (.stringBackslash, ('\\' :: [c]).asString, rest, [])
    else if isAccentMarker c then scanAccentGo c rest
    else if c = ',' || c = ';' || c = '[' || c = ']' || c = '(' || c = ')' then
      some (.stringMacroTok, ('\\' :: [c]).asString, rest, [])
    else
      let keep : Char → Bool := fun x => !(isSpecialStringChar st x) && x ≠ nulChar
      let name := (c :: rest).takeWhile keep
      let rest' := (c :: rest).dropWhile keep
      if name.isEmpty then some (.illegal, "", c :: rest, [macroNameEmptyErr])
      else if name.all isAsciiLetterChar then some (.stringMacroTok, name.asString, rest', [])
      else some (.illegal, (('\\' :: name).dropLast).asString, rest', [macroNameAsciiErr])

/-- `scanInString`: one in-string token. -/
def scanInString (st : SState) (cs : List Char) : Option ScanRes :=
  match cs with
  | [] => some ⟨.illegal, eofLit, st, [], ["illegal character in string"]⟩
  | c :: rest =>
    if !(isSpecialStringChar st c) then
      some ⟨.stringContents,
        ((c :: rest).takeWhile (fun x => !(isSpecialStringChar st x))).asString, st,
        (c :: rest).dropWhile (fun x => !(isSpecialStringChar st x)), []⟩
    else if c = '$' then
      match scanStringMathGo [] rest with
      | (tok, lit, rest', errs) => some ⟨tok, lit, st, rest', errs⟩
    else if c = quoteChar then
      if st.endQuoteCh = quoteChar && st.braceDepth = 0 then
        some ⟨.doubleQuote, "", { st with endQuoteCh := noQuoteCh }, rest, []⟩
      else some ⟨.stringContents, quoteChar.toString, st, rest, []⟩
    else if c = '\\' then
      match scanStringEscapeGo st rest with
      | none => none
      | some (tok, lit, rest', errs) => some ⟨tok, lit, st, rest', errs⟩
    else if c = lbraceChar then
      some ⟨.stringLBrace, "", { st with braceDepth := st.braceDepth + 1 }, rest, []⟩
    else if c = rbraceChar then
      if st.endQuoteCh = rbraceChar && st.braceDepth = 0 then
        some ⟨.stringRBrace, "", { st with endQuoteCh := noQuoteCh }, rest, []⟩
      else some ⟨.stringRBrace, "", { st with braceDepth := st.braceDepth - 1 }, rest, []⟩
    else if isWhitespaceChar c then
      some ⟨.stringSpace, "", st, rest.dropWhile isWhitespaceChar, []⟩
    else if c = ',' then some ⟨.stringComma, ",", st, rest, []⟩
    else if c = '~' then some ⟨.stringNBSP, "~", st, rest, []⟩
    else
      some ⟨.illegal, c.toString, st, rest,
        if c = bomChar then [] else ["illegal character in string"]⟩

/-- `Scanner.Scan` from `scanner.go`.  In-string mode (an open
`endQuoteCh`) delegates to `scanInString`, which does not update `prev`;
structural mode skips whitespace and dispatches on the first character.  A
`{` opens a string value exactly when the previous token was `=` or a
structural `{` — switching to in-string mode under `ScanStrings`, otherwise
scanning one opaque `BraceString`; a `"` always opens a quoted string. -/
def scan (st : SState) (cs : List Char) : Option ScanRes :=
  if st.endQuoteCh = rbraceChar ∨ st.endQuoteCh = quoteChar then scanInString st cs
  else
    match cs.dropWhile isWhitespaceChar with
    | [] => some ⟨.eof, "", { st with prev := .eof }, [], []⟩
    | c :: rest =>
      if isDecimalChar c then
        match scanNumberGo (c :: rest) with
        | (lit, rest') => some ⟨.number, lit, { st with prev := .number }, rest', []⟩
      else if isNameChar c then
        match scanIdentGo (c :: rest) with
        | (lit, rest') => some ⟨.ident, lit, { st with prev := .ident }, rest', []⟩
      else if c = quoteChar then
        if st.scanStrings then
          some ⟨.doubleQuote, "",
            { st with prev := .doubleQuote, endQuoteCh := quoteChar }, rest, []⟩
        else
          match scanStringGo (rest.length + 1) [] rest with
          | (consumed, rest', errs) =>
            some ⟨.stringTok, consumed.dropLast.asString,
              { st with prev := .stringTok }, rest', errs⟩
      else if c = ',' then some ⟨.comma, "", { st with prev := .comma }, rest, []⟩
      else if c = '=' then some ⟨.assign, "", { st with prev := .assign }, rest, []⟩
      else if c = '@' then
        match scanCommandGo rest with
        | (lit, rest', errs) =>
          let tok := if equalFold "@comment" lit then Tok.commentTok
            else if equalFold "@string" lit then Tok.abbrevTok
            else if equalFold "@preamble" lit then Tok.preambleTok
            else Tok.bibEntry
          some ⟨tok, lit, { st with prev := tok }, rest', errs⟩
      else if c = lbraceChar then
        if st.prev = .assign ∨ st.prev = .lbrace then
          if st.scanStrings then
            some ⟨.stringLBrace, "",
              { st with prev := .stringLBrace, endQuoteCh := rbraceChar }, rest, []⟩
          else
            match scanBraceStringGo (rest.length + 1) [] rest with
            | (consumed, rest', errs) =>
              some ⟨.braceString, consumed.dropLast.asString,
                { st with prev := .braceString }, rest', errs⟩
        else some ⟨.lbrace, "", { st with prev := .lbrace }, rest, []⟩
      else if c = rbraceChar then some ⟨.rbrace, "", { st with prev := .rbrace }, rest, []⟩
      else if c = '%' then
        match scanTexCommentGo rest with
        | (lit, rest') => some ⟨.texComment, lit, { st with prev := .texComment }, rest', []⟩
      else if c = '#' then some ⟨.concat, "", { st with prev := .concat }, rest, []⟩
      else if c = '(' then some ⟨.lparen, "", { st with prev := .lparen }, rest, []⟩
      else if c = ')' then some ⟨.rparen, "", { st with prev := .rparen }, rest, []⟩
      else
        some ⟨.illegal, c.toString, { st with prev := .illegal }, rest,
          if c = bomChar then [] else ["illegal character"]⟩

/-- The scanner state right after `Init`: `prev` at its zero value
(`Illegal`), no open string, depth 0. -/
def initialSState (scanStrings : Bool) : SState :=
  ⟨.illegal, noQuoteCh, 0, scanStrings⟩

/-- Repeated `Scan` until `EOF`, collecting `(token, literal)` pairs and all
diagnostics. -/
def scanAll : Nat → SState → List Char → List (Tok × String) → List String →
    Option (List (Tok × String) × List String)
  | 0, _, _, acc, errs => some (acc, errs ++ ["scanner out of fuel"])
  | fuel + 1, st, cs, acc, errs =>
    match scan st cs with
    | none => none
    | some r =>
      if r.tok = .eof then some (acc ++ [(.eof, r.lit)], errs ++ r.errs)
      else scanAll fuel r.state r.rest (acc ++ [(r.tok, r.lit)]) (errs ++ r.errs)

/-- Tokenize a whole source string in structural mode without string
tokenization (the mode of the claim C6 examples). -/
def tokenize (src : String) : Option (List (Tok × String) × List String) :=
  scanAll (src.data.length + 1) (initialSState false) src.data [] []

/-! ## Concrete inputs and claim statements -/

/-- The others-author produced for a final `"others"` run. -/
def othersAuthor : Author :=
  ⟨.text 0 "", .text 0 "", .text 0 "others", .text 0 ""⟩

/-- The `"Last3 and and Last4"` author list of claim C1, as parsed values. -/
def exC1 : List Expr :=
  [.text 0 "Last3", .textSpace " ", .text 0 "and", .textSpace " ",
   .text 0 "and", .textSpace " ", .text 0 "Last4"]

/-- What claim C1 asserts at its own example: the author resolved before the
empty run (`Last3`) is returned alongside the empty-author error. -/
def claimC1Prop : Prop :=
  extractAuthors exC1 =
    some ([⟨.text 0 "", .text 0 "", .text 0 "Last3", .text 0 ""⟩], some emptyAuthorErr)

/-- The run `"Last, Jr., First"` (two depth-0 commas) for claim C3. -/
def exC3 : List Expr :=
  [.text 0 "Last", .textComma, .textSpace " ", .text 0 "Jr.",
   .textComma, .textSpace " ", .text 0 "First"]

/-- What claim C8 asserts of the default stringifier: an `Escaped(c)` token
stringifies to just the character, without its backslash. -/
def claimC8Prop : Prop :=
  ∀ v : String, parseDefault (.textEscaped v) = some v

/-- The single-author run `{Foo \& Bar}` of claim C8. -/
def exC8 : List Expr :=
  [.parsedText 0 1 .braceDelim
    [.text 0 "Foo", .textSpace " ", .textEscaped "&", .textSpace " ", .text 0 "Bar"] 0]

/-- The number of direct children of a `ParsedText`. -/
def exprValuesLength : Expr → Nat
  | .parsedText _ _ _ vs _ => vs.length
  | _ => 0

/-- What claim C9 asserts: the url fix-up applies to every tag whose
*lowercased* name is `"url"`. -/
def claimC9Prop : Prop :=
  ∀ (rawName : String) (o d : Nat) (dl : Delim) (vs : List Expr) (c : Nat),
    toLowerString rawName = "url" →
    (∀ (p1 : Nat) (s1 : String) (tl : List Expr) (cat : String),
      vs = .text p1 s1 :: tl → hasPrefixString "http" s1 = true →
      allTextConcat vs = some cat →
      storedTagValue rawName (.parsedText o d dl vs c) = .parsedText o d dl [.text p1 cat] c) ∧
    (∀ (p1 : Nat) (s1 : String) (tl : List Expr),
      vs = .text p1 s1 :: tl → hasPrefixString "http" s1 = false →
      storedTagValue rawName (.parsedText o d dl vs c) = .parsedText o d dl vs c) ∧
    (allTextConcat vs = none →
      storedTagValue rawName (.parsedText o d dl vs c) = .parsedText o d dl vs c)

/-- What claim C10 asserts: any author-field value whose top-level run ends
with the separator `"and"` followed, up to surrounding spaces, by the single
`Content` token `"others"`, makes `ExtractAuthors` return a list whose final
element is the others-author. -/
def claimC10Prop : Prop :=
  ∀ (values vs : List Expr) (p q : Nat) (ss1 ss2 : List Expr),
    values = vs ++ .text p "and" :: (ss1 ++ .text q "others" :: ss2) →
    (∀ e ∈ ss1, isTextSpace e = true) →
    (∀ e ∈ ss2, isTextSpace e = true) →
    ∃ l r, extractAuthors values = some (l, r) ∧
      ∃ a, l.getLast? = some a ∧ a.isOthers = true

/-- What claim C7 asserts: reaching end of input inside an opaque quoted or
braced string value reports the "not terminated" diagnostic and emits one
`Illegal` token. -/
def claimC7Prop : Prop :=
  ∀ (st : SState) (rest : List Char),
    st.endQuoteCh = noQuoteCh → st.scanStrings = false →
    (∀ c ∈ rest, c ≠ quoteChar ∧ c ≠ lbraceChar) →
    ∃ r, scan st (quoteChar :: rest) = some r ∧ r.tok = .illegal ∧
      dquoteNotTermErr ∈ r.errs

/-! # Theorems

First the helper lemmas about the author-resolution loops, then one theorem
(with its witness or counterexample) for each claim. -/

theorem takeWhile_all_append (p : Expr → Bool) (l1 : List Expr) (x : Expr) (l2 : List Expr)
    (h1 : ∀ e ∈ l1, p e = true) (hx : p x = false) :
    (l1 ++ x :: l2).takeWhile p = l1 := by
  induction l1 with
  | nil => simp [List.takeWhile, hx]
  | cons a t ih =>
    have ha : p a = true := h1 a (by simp)
    simp only [List.cons_append, List.takeWhile_cons, ha, if_true]
    rw [ih (fun e he => h1 e (by simp [he]))]

theorem trimSpaces_spaces_single (ss1 ss2 : List Expr) (x : Expr)
    (h1 : ∀ e ∈ ss1, isTextSpace e = true) (h2 : ∀ e ∈ ss2, isTextSpace e = true)
    (hx : isTextSpace x = false) :
    trimSpaces (ss1 ++ x :: ss2) = [x] := by
  unfold trimSpaces
  rw [takeWhile_all_append _ _ _ _ h1 hx]
  have hrev : (ss1 ++ x :: ss2).reverse = ss2.reverse ++ x :: ss1.reverse := by
    simp
  rw [hrev, takeWhile_all_append _ _ _ _ (fun e he => h2 e (by simpa using he)) hx]
  simp only [List.length_reverse]
  have hlen : (ss1 ++ x :: ss2).length = ss1.length + 1 + ss2.length := by
    simp; omega
  rw [hlen]
  rw [if_neg (by omega)]
  have hd : (ss1 ++ x :: ss2).drop ss1.length = x :: ss2 := List.drop_left ss1 (x :: ss2)
  rw [hd]
  have h1' : ss1.length + 1 + ss2.length - ss2.length - ss1.length = 1 := by omega
  rw [h1']
  simp [List.take]

theorem isTextSpace_not_sep {e : Expr} (h : isTextSpace e = true) : isAuthorSep e = false := by
  cases e <;> simp_all [isTextSpace, isAuthorSep]

theorem extractAuthorsLoop_no_sep (rest : List Expr) :
    ∀ (authors : List Author) (acc : List Expr),
    (∀ e ∈ rest, isAuthorSep e = false) →
    extractAuthorsLoop rest authors acc =
      (do
        let fin ← extractAuthor (acc ++ rest)
        if fin.isEmpty then pure ([], some emptyAuthorErr)
        else pure (authors ++ [fin], none)) := by
  induction rest with
  | nil => intro authors acc _; simp [extractAuthorsLoop]
  | cons v t ih =>
    intro authors acc h
    have hv : isAuthorSep v = false := h v (by simp)
    conv_lhs => rw [extractAuthorsLoop]
    rw [hv]
    simp only [Bool.false_eq_true, if_false]
    rw [ih _ _ (fun e he => h e (by simp [he]))]
    simp

theorem extractAuthor_spaces_others (ss1 ss2 : List Expr) (q : Nat)
    (h1 : ∀ e ∈ ss1, isTextSpace e = true) (h2 : ∀ e ∈ ss2, isTextSpace e = true) :
    extractAuthor (ss1 ++ .text q "others" :: ss2) = some othersAuthor := by
  simp only [extractAuthor]
  rw [trimSpaces_spaces_single ss1 ss2 (.text q "others") h1 h2 rfl]
  rfl

theorem c10_loop (p q : Nat) (ss1 ss2 : List Expr)
    (h1 : ∀ e ∈ ss1, isTextSpace e = true) (h2 : ∀ e ∈ ss2, isTextSpace e = true) :
    ∀ (vs : List Expr) (authors : List Author) (acc : List Expr) (l : List Author),
    extractAuthorsLoop (vs ++ .text p "and" :: (ss1 ++ .text q "others" :: ss2)) authors acc
      = some (l, none) →
    ∃ as, l = as ++ [othersAuthor] := by
  have hnosep : ∀ e ∈ ss1 ++ Expr.text q "others" :: ss2, isAuthorSep e = false := by
    intro e he
    rcases List.mem_append.1 he with h | h
    · exact isTextSpace_not_sep (h1 e h)
    · rcases List.mem_cons.1 h with rfl | h
      · rfl
      · exact isTextSpace_not_sep (h2 e h)
  intro vs
  induction vs with
  | nil =>
    intro authors acc l h
    rw [List.nil_append] at h
    conv_lhs at h => rw [extractAuthorsLoop]
    rw [show isAuthorSep (Expr.text p "and") = true from rfl] at h
    simp only [if_true] at h
    cases hext : extractAuthor acc with
    | none =>
      rw [hext] at h
      simp only [Option.pure_def, Option.bind_eq_bind, Option.none_bind] at h
      exact Option.noConfusion h
    | some a =>
      rw [hext] at h
      simp only [Option.pure_def, Option.bind_eq_bind, Option.some_bind] at h
      cases hie : a.isEmpty with
      | true =>
        rw [hie] at h
        simp only [if_true, Option.some.injEq, Prod.mk.injEq] at h
        exact absurd h.2 (by simp)
      | false =>
        rw [hie] at h
        simp only [Bool.false_eq_true, if_false] at h
        rw [extractAuthorsLoop_no_sep _ _ _ hnosep, List.nil_append] at h
        rw [extractAuthor_spaces_others ss1 ss2 q h1 h2] at h
        simp only [Option.pure_def, Option.bind_eq_bind, Option.some_bind] at h
        rw [show othersAuthor.isEmpty = false from rfl] at h
        simp only [Bool.false_eq_true, if_false, Option.some.injEq, Prod.mk.injEq] at h
        exact ⟨authors ++ [a], h.1.symm⟩
  | cons v vs' ih =>
    intro authors acc l h
    rw [List.cons_append] at h
    conv_lhs at h => rw [extractAuthorsLoop]
    cases hsep : isAuthorSep v with
    | false =>
      rw [hsep] at h
      simp only [Bool.false_eq_true, if_false] at h
      exact ih _ _ _ h
    | true =>
      rw [hsep] at h
      simp only [if_true] at h
      cases hext : extractAuthor acc with
      | none =>
        rw [hext] at h
        simp only [Option.pure_def, Option.bind_eq_bind, Option.none_bind] at h
        exact Option.noConfusion h
      | some a =>
        rw [hext] at h
        simp only [Option.pure_def, Option.bind_eq_bind, Option.some_bind] at h
        cases hie : a.isEmpty with
        | true =>
          rw [hie] at h
          simp only [if_true, Option.some.injEq, Prod.mk.injEq] at h
          exact absurd h.2 (by simp)
        | false =>
          rw [hie] at h
          simp only [Bool.false_eq_true, if_false] at h
          exact ih _ _ _ h

theorem isTextValued_iff (w : String) (e : Expr) :
    isTextValued w e = true ↔ ∃ p, e = .text p w := by
  cases e <;> simp [isTextValued]

theorem extractAuthorsLoop_error_nil :
    ∀ (vs : List Expr) (authors : List Author) (acc : List Expr)
      (as : List Author) (msg : String),
      extractAuthorsLoop vs authors acc = some (as, some msg) →
      as = [] ∧ msg = emptyAuthorErr := by
  intro vs
  induction vs with
  | nil =>
    intro authors acc as msg h
    rw [extractAuthorsLoop] at h
    cases hext : extractAuthor acc with
    | none =>
      rw [hext] at h
      simp only [Option.pure_def, Option.bind_eq_bind, Option.none_bind] at h
      exact Option.noConfusion h
    | some fin =>
      rw [hext] at h
      simp only [Option.pure_def, Option.bind_eq_bind, Option.some_bind] at h
      cases hie : fin.isEmpty with
      | true =>
        rw [hie] at h
        simp only [if_true, Option.some.injEq, Prod.mk.injEq] at h
        exact ⟨h.1.symm, h.2.symm⟩
      | false =>
        rw [hie] at h
        simp only [Bool.false_eq_true, if_false, Option.some.injEq, Prod.mk.injEq] at h
        exact absurd h.2 (by simp)
  | cons v t ih =>
    intro authors acc as msg h
    conv_lhs at h => rw [extractAuthorsLoop]
    cases hsep : isAuthorSep v with
    | false =>
      rw [hsep] at h
      simp only [Bool.false_eq_true, if_false] at h
      exact ih _ _ _ _ h
    | true =>
      rw [hsep] at h
      simp only [if_true] at h
      cases hext : extractAuthor acc with
      | none =>
        rw [hext] at h
        simp only [Option.pure_def, Option.bind_eq_bind, Option.none_bind] at h
        exact Option.noConfusion h
      | some a =>
        rw [hext] at h
        simp only [Option.pure_def, Option.bind_eq_bind, Option.some_bind] at h
        cases hie : a.isEmpty with
        | true =>
          rw [hie] at h
          simp only [if_true, Option.some.injEq, Prod.mk.injEq] at h
          exact ⟨h.1.symm, h.2.symm⟩
        | false =>
          rw [hie] at h
          simp only [Bool.false_eq_true, if_false] at h
          exact ih _ _ _ _ h

theorem amendLast_eq (xs : List Expr) :
    amendLast xs = (lastLoop xs).map (fun l => ("", "", l)) := by
  induction xs with
  | nil => rfl
  | cons x t ih =>
    rw [amendLast, lastLoop, ih]
    cases parseDefault x <;> cases lastLoop t <;> simp

theorem amendVon_eq (xs : List Expr) :
    amendVon xs = (do
      let (v, r) ← vonLoop xs
      let l ← lastLoop r
      pure (("" : String), v, l)) := by
  induction xs using amendVon.induct with
  | case1 => rfl
  | case2 x =>
    rw [amendVon, vonLoop]
    cases hpd : parseDefault x <;> simp [lastLoop, hpd, String.append_empty]
  | case3 y rest pos s hu =>
    rw [amendVon, vonLoop]
    simp only [hu, if_true, amendLast_eq]
    cases hll : lastLoop (Expr.text pos s :: y :: rest) <;> simp [hll, Option.map]
  | case4 y rest pos s hu ih =>
    rw [amendVon, vonLoop]
    simp only [if_neg hu]
    rw [ih]
    cases vonLoop (y :: rest) with
    | none => simp
    | some vr =>
      obtain ⟨v0, r0⟩ := vr
      cases hll : lastLoop r0 <;> simp [hll]
  | case5 x y rest hnt ih =>
    rw [amendVon, vonLoop]
    · rw [ih]
      cases parseDefault x with
      | none => simp
      | some s =>
        cases vonLoop (y :: rest) with
        | none => simp
        | some vr =>
          obtain ⟨v0, r0⟩ := vr
          cases hll : lastLoop r0 <;> simp [hll]
    · exact hnt
    · exact hnt

theorem amendFirst_eq (xs : List Expr) :
    amendFirst xs = (do
      let (f, r1) ← firstLoop xs
      let (v, r2) ← vonLoop r1
      let l ← lastLoop r2
      pure (f, v, l)) := by
  induction xs using amendFirst.induct with
  | case1 => rfl
  | case2 x =>
    rw [amendFirst, firstLoop]
    simp only [Option.pure_def, Option.bind_eq_bind, Option.some_bind]
    rw [vonLoop]
    cases hpd : parseDefault x <;> simp [lastLoop, hpd, String.append_empty]
  | case3 x y rest hstop =>
    rw [amendFirst, firstLoop]
    simp only [hstop, if_true, amendVon_eq]
    cases hv : vonLoop (x :: y :: rest) with
    | none => simp [hv]
    | some vr =>
      obtain ⟨v0, r0⟩ := vr
      cases hll : lastLoop r0 <;> simp [hv, hll]
  | case4 x y rest hstop ih =>
    rw [amendFirst, firstLoop]
    simp only [if_neg hstop]
    rw [ih]
    cases hpt : parseTokenVal x with
    | none => simp [hpt]
    | some s =>
      cases hf : firstLoop (y :: rest) with
      | none => simp [hpt, hf]
      | some fr =>
        obtain ⟨f0, r1⟩ := fr
        cases hv : vonLoop r1 with
        | none => simp [hpt, hf, hv]
        | some vr =>
          obtain ⟨v0, r2⟩ := vr
          cases hll : lastLoop r2 <;> simp [hpt, hf, hv, hll]

/-- C1: as claimed, resolving `"Last3 and and Last4"` should return the one
successfully resolved author (`Last3`) together with the empty-author
error.  It does not: `ExtractAuthors` returns a `nil` author list with the
error. -/
theorem c1_counterexample : ¬ claimC1Prop := by
  intro h
  have h' : extractAuthors exC1
      = some ([⟨.text 0 "", .text 0 "", .text 0 "Last3", .text 0 ""⟩], some emptyAuthorErr) := h
  rw [show extractAuthors exC1 = some (([] : List Author), some emptyAuthorErr) from rfl] at h'
  cases h'

/-- C1 (amended): whenever `ExtractAuthors` reports the empty-author error —
which it does as soon as *any* run (not only the final one) resolves to an
all-empty author — it returns `nil` for the author list: no partial result
accompanies the error.  On `"Last3 and and Last4"` in particular it returns
`(nil, error)`. -/
theorem c1_error_discards_authors :
    (∀ (values : List Expr) (as : List Author) (msg : String),
      extractAuthors values = some (as, some msg) →
      as = [] ∧ msg = emptyAuthorErr) ∧
    extractAuthors exC1 = some ([], some emptyAuthorErr) :=
  ⟨fun values as msg h => extractAuthorsLoop_error_nil values [] [] as msg h, rfl⟩

/-- C1 witness: the amended theorem applied to the `"Last3 and and Last4"`
example, its hypothesis discharged by computation. -/
theorem c1_witness : ([] : List Author) = [] ∧ emptyAuthorErr = emptyAuthorErr :=
  c1_error_discards_authors.1 exC1 [] emptyAuthorErr rfl

/-- C2: as claimed, First should stop at the first lower-case-starting
`Content` token.  On the comma-free run `"first Last"` the code instead
accepts the lower-case word `"first"` into First: the stop test looks at a
`Space` followed by a lower-case `Content` token, so a lower-case word at
the start of the run never stops First, while the specification's rule puts
it in the von-Prefix. -/
theorem c2_counterexample : ¬ claimC2Prop := by
  intro h
  have h' := h [.text 0 "first", .textSpace " ", .text 0 "Last"] rfl rfl
  have hfv := congrArg (Option.map authorFirstValue) h'
  rw [show Option.map authorFirstValue
        (extractAuthor [.text 0 "first", .textSpace " ", .text 0 "Last"])
        = some "first" from rfl] at hfv
  rw [show Option.map authorFirstValue
        (resolveAuthor0SpecC2 [.text 0 "first", .textSpace " ", .text 0 "Last"])
        = some "" from rfl] at hfv
  exact absurd hfv (by decide)

/-- C2 (amended): on a trimmed comma-free run the resolver behaves like the
First/Prefix/Last walk with the corrected First stop rule (First stops at a
`Space` token whose immediate successor is a `Content` token that does not
start upper-case, never at the `Content` token itself); in particular
`"Last"` resolves to `Author{last:"Last"}` and `"First von Last"` to
`Author{first:"First", prefix:"von", last:"Last"}`. -/
theorem c2_first_von_last_walk :
    (∀ xs : List Expr, trimSpaces xs = xs → findCommas xs = [] →
      extractAuthor xs = resolveAuthor0Amend xs) ∧
    extractAuthors [.text 0 "Last"] =
      some ([⟨.text 0 "", .text 0 "", .text 0 "Last", .text 0 ""⟩], none) ∧
    extractAuthors [.text 0 "First", .textSpace " ", .text 0 "von",
                    .textSpace " ", .text 0 "Last"] =
      some ([⟨.text 0 "First", .text 0 "von", .text 0 "Last", .text 0 ""⟩], none) := by
  refine ⟨?_, rfl, rfl⟩
  intro xs htrim hcommas
  simp only [extractAuthor]
  rw [htrim, hcommas]
  simp only [List.isEmpty_nil, if_true]
  rw [resolveAuthor0, resolveAuthor0Amend, amendFirst_eq]
  cases hf : firstLoop xs with
  | none => simp [hf]
  | some fr =>
    obtain ⟨f0, r1⟩ := fr
    cases hv : vonLoop r1 with
    | none => simp [hf, hv]
    | some vr =>
      obtain ⟨v0, r2⟩ := vr
      cases hll : lastLoop r2 <;> simp [hf, hv, hll]

/-- C2 witness: the amended walk equality applied to the concrete run
`"First von Last"`, hypotheses discharged by computation. -/
theorem c2_witness :
    extractAuthor [.text 0 "First", .textSpace " ", .text 0 "von",
                   .textSpace " ", .text 0 "Last"] =
      resolveAuthor0Amend [.text 0 "First", .textSpace " ", .text 0 "von",
                           .textSpace " ", .text 0 "Last"] :=
  c2_first_von_last_walk.1 _ rfl rfl

/-- C3: evaluating the resolver at the failing input `"Last, Jr., First"`.
`resolveAuthorN` stringifies only the single token right after the first
comma — here a space — into Suffix, so Suffix comes out empty, while the
tokens strictly between the two commas stringify to `"Jr."` (what the
claim, and the doc comment of `resolveAuthorN`, demand). -/
theorem c3_suffix_only_first_token :
    (extractAuthor exC3).map authorSuffixValue = some "" ∧
    suffixSpecC3 exC3 = some "Jr." ∧
    (extractAuthor exC3).map authorSuffixValue ≠ suffixSpecC3 exC3 ∧
    (extractAuthor exC3).map authorFirstValue = some "First" ∧
    (extractAuthor exC3).map authorLastValue = some "Last" := by
  refine ⟨rfl, rfl, ?_, rfl, rfl⟩
  rw [show (extractAuthor exC3).map authorSuffixValue = some "" from rfl,
      show suffixSpecC3 exC3 = some "Jr." from rfl]
  decide

/-- C8: as claimed, the default stringifier should map `Escaped("&")` to
`"&"`.  It emits the backslash: `Escaped("&")` stringifies to `"\&"`. -/
theorem c8_counterexample : ¬ claimC8Prop := by
  intro h
  have h' := h "&"
  rw [show parseDefault (.textEscaped "&") = some "\\&" from rfl] at h'
  exact absurd h' (by decide)

/-- C8 (amended): the default stringifier maps `Escaped(c)` to the
backslash followed by the character, so resolving the single-author run
`{Foo \& Bar}` yields Last equal to `"Foo \& Bar"`, not `"Foo & Bar"`. -/
theorem c8_escaped_keeps_backslash :
    (∀ v : String, parseDefault (.textEscaped v) = some ("\\" ++ v)) ∧
    (extractAuthor exC8).map authorLastValue = some "Foo \\& Bar" ∧
    ("Foo \\& Bar" : String) ≠ "Foo & Bar" :=
  ⟨fun _ => rfl, rfl, by decide⟩

/-- C9: as claimed, the url fix-up should fire for every tag whose
*lowercased* name is `"url"`.  `parseBibDecl` passes the raw name to
`fixUpFields`, which compares it with `"url"` verbatim, so a tag written
`URL` with a collapsible all-Text `http` value is stored unchanged. -/
theorem c9_counterexample : ¬ claimC9Prop := by
  intro h
  have h1 := (h "URL" 0 0 .braceDelim [.text 0 "http://a", .text 9 "b"] 5 rfl).1
    0 "http://a" [.text 9 "b"] "http://ab" rfl rfl rfl
  have h2 := congrArg exprValuesLength h1
  rw [show exprValuesLength (storedTagValue "URL"
        (.parsedText 0 0 .braceDelim [.text 0 "http://a", .text 9 "b"] 5)) = 2 from rfl] at h2
  rw [show exprValuesLength (Expr.parsedText 0 0 .braceDelim [.text 0 "http://ab"] 5) = 1
        from rfl] at h2
  exact absurd h2 (by decide)

/-- C9 (amended): for every tag whose name *as written in source* is exactly
`"url"` and whose deep-parsed value is a `ParsedText` whose first child is a
`Text` starting with `"http"`: if every child is a `Text` the stored value
is a `ParsedText` with the same opener, depth, delimiter and closer and one
`Text` child (at the first child's position) holding the concatenation of
all the children's values; if any child is not a `Text`, or the first child
does not start with `"http"`, or the tag name as written differs from
`"url"`, the value is stored unchanged. -/
theorem c9_url_fixup :
    (∀ (o d : Nat) (dl : Delim) (vs : List Expr) (c : Nat)
       (p1 : Nat) (s1 : String) (tl : List Expr) (cat : String),
      vs = .text p1 s1 :: tl → hasPrefixString "http" s1 = true →
      allTextConcat vs = some cat →
      storedTagValue "url" (.parsedText o d dl vs c) = .parsedText o d dl [.text p1 cat] c) ∧
    (∀ (o d : Nat) (dl : Delim) (vs : List Expr) (c : Nat)
       (p1 : Nat) (s1 : String) (tl : List Expr),
      vs = .text p1 s1 :: tl → hasPrefixString "http" s1 = false →
      storedTagValue "url" (.parsedText o d dl vs c) = .parsedText o d dl vs c) ∧
    (∀ (o d : Nat) (dl : Delim) (vs : List Expr) (c : Nat),
      allTextConcat vs = none →
      storedTagValue "url" (.parsedText o d dl vs c) = .parsedText o d dl vs c) ∧
    (∀ (rawName : String) (val : Expr), rawName ≠ "url" →
      storedTagValue rawName val = val) := by
  refine ⟨?_, ?_, ?_, ?_⟩
  · intro o d dl vs c p1 s1 tl cat hvs hpre hcat
    subst hvs
    simp only [storedTagValue, fixUpFields, if_pos rfl, hpre, if_true, hcat]
  · intro o d dl vs c p1 s1 tl hvs hpre
    subst hvs
    simp only [storedTagValue, fixUpFields, if_pos rfl, hpre, Bool.false_eq_true, if_false,
      ite_self]
  · intro o d dl vs c hcat
    cases vs with
    | nil => simp [storedTagValue, fixUpFields]
    | cons v1 tl =>
      cases v1
      case text p1 s1 =>
        cases hpre : hasPrefixString "http" s1 with
        | true => simp only [storedTagValue, fixUpFields, if_pos rfl, hpre, if_true, hcat]
        | false =>
          simp [storedTagValue, fixUpFields, hpre, ite_self]
      all_goals simp [storedTagValue, fixUpFields, ite_self]
  · intro rawName val hne
    simp only [storedTagValue, fixUpFields, if_neg hne]

/-- C9 witness: the fix-up applied to a concrete two-Text `url` value. -/
theorem c9_witness :
    storedTagValue "url" (.parsedText 0 0 .braceDelim [.text 0 "http://a", .text 9 "b"] 5)
      = .parsedText 0 0 .braceDelim [.text 0 "http://ab"] 5 :=
  c9_url_fixup.1 0 0 .braceDelim [.text 0 "http://a", .text 9 "b"] 5
    0 "http://a" [.text 9 "b"] "http://ab" rfl rfl rfl

/-- C10: as claimed, any author field ending in `"and"` + spaces +
`"others"` should yield a final others-author.  On the value `"and others"`
(an empty run before the separator) `ExtractAuthors` instead aborts with the
empty-author error and an empty author list: there is no final element at
all. -/
theorem c10_counterexample : ¬ claimC10Prop := by
  intro h
  obtain ⟨l, r, hlr, a, hlast, _⟩ :=
    h [.text 0 "and", .textSpace " ", .text 0 "others"] [] 0 0 [.textSpace " "] []
      rfl (by intro e he; simp at he; rw [he]; rfl) (by intro e he; simp at he)
  rw [show extractAuthors [.text 0 "and", .textSpace " ", .text 0 "others"]
        = some (([] : List Author), some emptyAuthorErr) from rfl] at hlr
  cases hlr
  simp at hlast

/-- C10 (amended): whenever `ExtractAuthors` *succeeds* on an author field
whose top-level values end with the separator `"and"` followed (up to
surrounding `Space` nodes) by the single `Content` token `"others"`, the
final element of the returned list is the author with empty First, Prefix
and Suffix and Last `"others"`; and `Author.IsOthers` is true for exactly
the authors of that shape. -/
theorem c10_others_final :
    (∀ (values vs : List Expr) (p q : Nat) (ss1 ss2 : List Expr) (l : List Author),
      values = vs ++ .text p "and" :: (ss1 ++ .text q "others" :: ss2) →
      (∀ e ∈ ss1, isTextSpace e = true) →
      (∀ e ∈ ss2, isTextSpace e = true) →
      extractAuthors values = some (l, none) →
      l ≠ [] ∧ l.getLast? = some othersAuthor) ∧
    (∀ a : Author, a.isOthers = true ↔
      ∃ p1 p2 p3 p4, a = ⟨.text p1 "", .text p2 "", .text p3 "others", .text p4 ""⟩) := by
  constructor
  · intro values vs p q ss1 ss2 l hshape h1 h2 hres
    subst hshape
    obtain ⟨as, rfl⟩ := c10_loop p q ss1 ss2 h1 h2 vs [] [] l hres
    constructor
    · simp
    · exact List.getLast?_concat as
  · intro a
    obtain ⟨f, v, lst, sfx⟩ := a
    simp only [Author.isOthers, Bool.and_eq_true]
    rw [isTextValued_iff, isTextValued_iff, isTextValued_iff, isTextValued_iff]
    constructor
    · rintro ⟨⟨⟨⟨p1, rfl⟩, p2, rfl⟩, p3, rfl⟩, p4, rfl⟩
      exact ⟨p1, p2, p3, p4, rfl⟩
    · rintro ⟨p1, p2, p3, p4, heq⟩
      cases heq
      exact ⟨⟨⟨⟨p1, rfl⟩, p2, rfl⟩, p3, rfl⟩, p4, rfl⟩

/-- C10 witness: a concrete successful `"A and others"` field, resolved end
to end; the theorem applies and its hypotheses hold by computation. -/
theorem c10_witness :
    ([⟨.text 0 "", .text 0 "", .text 0 "A", .text 0 ""⟩, othersAuthor] : List Author) ≠ [] ∧
    ([⟨.text 0 "", .text 0 "", .text 0 "A", .text 0 ""⟩, othersAuthor] : List Author).getLast?
      = some othersAuthor :=
  c10_others_final.1
    [.text 0 "A", .textSpace " ", .text 0 "and", .textSpace " ", .text 0 "others"]
    [.text 0 "A", .textSpace " "] 0 0 [.textSpace " "] [] _ rfl
    (by intro e he; simp at he; rw [he]; rfl) (by intro e he; simp at he) rfl

end Bibtex

namespace Bibtex

theorem scanStringGo_no_term :
    ∀ (rest : List Char) (fuel : Nat) (consumed : List Char),
      rest.length < fuel →
      (∀ c ∈ rest, c ≠ quoteChar ∧ c ≠ lbraceChar) →
      scanStringGo fuel consumed rest = (consumed ++ rest, [], [dquoteNotTermErr]) := by
  intro rest
  induction rest with
  | nil =>
    intro fuel consumed hf _
    match fuel, hf with
    | fuel + 1, _ => rw [scanStringGo]; simp
  | cons c r ih =>
    intro fuel consumed hf h
    match fuel, hf with
    | fuel + 1, hf =>
      rw [scanStringGo]
      have hc := h c (by simp)
      rw [if_neg hc.1, if_neg hc.2]
      rw [ih fuel (consumed ++ [c]) (by simpa using Nat.lt_of_succ_lt_succ hf)
            (fun x hx => h x (by simp [hx]))]
      simp

theorem scanBraceStringGo_no_term :
    ∀ (rest : List Char) (fuel : Nat) (consumed : List Char),
      rest.length < fuel →
      (∀ c ∈ rest, c ≠ rbraceChar ∧ c ≠ lbraceChar) →
      scanBraceStringGo fuel consumed rest = (consumed ++ rest, [], [braceNotTermErr]) := by
  intro rest
  induction rest with
  | nil =>
    intro fuel consumed hf _
    match fuel, hf with
    | fuel + 1, _ => rw [scanBraceStringGo.eq_def]; simp
  | cons c r ih =>
    intro fuel consumed hf h
    match fuel, hf with
    | fuel + 1, hf =>
      have hc := h c (by simp)
      rw [scanBraceStringGo.eq_def]
      simp only [hc.1, hc.2, if_false]
      rw [ih fuel (consumed ++ [c]) (by simpa using Nat.lt_of_succ_lt_succ hf)
            (fun x hx => h x (by simp [hx]))]
      simp

end Bibtex

namespace Bibtex

/-- C7 (amended): reaching end of input inside an *opaque* quoted or braced
string value reports the "not terminated" diagnostic, but the emitted token
is the ordinary `String`/`BraceString` token (not `Illegal`), and its
literal is the remaining input with the final character dropped (the
`src[offs : s.offset-1]` slice loses one character at end of input). -/
theorem c7_unterminated_literal :
    (∀ (st : SState) (rest : List Char),
      st.endQuoteCh = noQuoteCh → st.scanStrings = false →
      (∀ c ∈ rest, c ≠ quoteChar ∧ c ≠ lbraceChar) →
      scan st (quoteChar :: rest) =
        some ⟨.stringTok, rest.dropLast.asString, { st with prev := .stringTok }, [],
          [dquoteNotTermErr]⟩) ∧
    (∀ (st : SState) (rest : List Char),
      st.endQuoteCh = noQuoteCh → st.scanStrings = false →
      (st.prev = .assign ∨ st.prev = .lbrace) →
      (∀ c ∈ rest, c ≠ rbraceChar ∧ c ≠ lbraceChar) →
      scan st (lbraceChar :: rest) =
        some ⟨.braceString, rest.dropLast.asString, { st with prev := .braceString }, [],
          [braceNotTermErr]⟩) := by
  constructor
  · intro st rest hq hs h
    rw [scan]
    rw [if_neg (by rw [hq]; decide)]
    rw [show (quoteChar :: rest).dropWhile isWhitespaceChar = quoteChar :: rest from by
          rw [List.dropWhile_cons, if_neg (by decide)]]
    simp only [show isDecimalChar quoteChar = false from rfl,
      show isNameChar quoteChar = false from rfl,
      Bool.false_eq_true, if_false, eq_self_iff_true, if_true, hs]
    rw [scanStringGo_no_term rest (rest.length + 1) [] (by omega) h]
    simp
  · intro st rest hq hs hprev h
    rw [scan]
    rw [if_neg (by rw [hq]; decide)]
    rw [show (lbraceChar :: rest).dropWhile isWhitespaceChar = lbraceChar :: rest from by
          rw [List.dropWhile_cons, if_neg (by decide)]]
    simp only [show isDecimalChar lbraceChar = false from rfl,
      show isNameChar lbraceChar = false from rfl,
      show (lbraceChar = quoteChar) = False from eq_false (by decide),
      show (lbraceChar = ',') = False from eq_false (by decide),
      show (lbraceChar = '=') = False from eq_false (by decide),
      show (lbraceChar = '@') = False from eq_false (by decide),
      Bool.false_eq_true, if_false, eq_self_iff_true, if_true,
      eq_true hprev, hs]
    rw [scanBraceStringGo_no_term rest (rest.length + 1) [] (by omega) h]
    simp

end Bibtex

namespace Bibtex

/-- C7: as claimed, end of input inside an opaque string value should emit
an `Illegal` token.  On the input `"a` (unterminated quoted string) the
scanner reports the diagnostic but emits an ordinary `String` token. -/
theorem c7_counterexample : ¬ claimC7Prop := by
  intro h
  obtain ⟨r, hr, htok, _⟩ :=
    h (initialSState false) ['a'] rfl rfl (by intro c hc; simp at hc; rw [hc]; decide)
  rw [show scan (initialSState false) (quoteChar :: ['a'])
        = some ⟨.stringTok, "", { initialSState false with prev := .stringTok }, [],
            [dquoteNotTermErr]⟩ from rfl] at hr
  cases hr
  exact Tok.noConfusion htok

/-- C7 witness: the amended theorem applied to the input `"abc` — a
`String` token with literal `"ab"` and the not-terminated diagnostic. -/
theorem c7_witness :
    scan (initialSState false) (quoteChar :: ['a', 'b', 'c']) =
      some ⟨.stringTok, (['a', 'b', 'c'] : List Char).dropLast.asString,
        { initialSState false with prev := .stringTok }, [], [dquoteNotTermErr]⟩ :=
  c7_unterminated_literal.1 (initialSState false) ['a', 'b', 'c'] rfl rfl
    (by intro c hc; fin_cases hc <;> exact ⟨by decide, by decide⟩)

/-- C4: in structural mode a `{` opens a string value — switching to
in-string mode under `ScanStrings`, otherwise scanning one opaque
`BraceString` — if and only if the previous token is `=` or a structural
`{`; in every other position it is a structural `LBrace`, and a `"` always
opens a quoted string (`DoubleQuote` + in-string mode under `ScanStrings`,
an opaque `String` literal otherwise). -/
theorem c4_brace_quote_heuristic :
    ∀ (st : SState) (cs rest : List Char),
      st.endQuoteCh = noQuoteCh →
      ((cs.dropWhile isWhitespaceChar = lbraceChar :: rest →
        ∃ r, scan st cs = some r ∧
          (((st.prev = .assign ∨ st.prev = .lbrace) →
            (if st.scanStrings then r.tok = .stringLBrace ∧ r.state.endQuoteCh = rbraceChar
             else r.tok = .braceString)) ∧
           (¬(st.prev = .assign ∨ st.prev = .lbrace) →
            r.tok = .lbrace ∧ r.state.endQuoteCh = noQuoteCh))) ∧
       (cs.dropWhile isWhitespaceChar = quoteChar :: rest →
        ∃ r, scan st cs = some r ∧
          (if st.scanStrings then r.tok = .doubleQuote ∧ r.state.endQuoteCh = quoteChar
           else r.tok = .stringTok))) := by
  intro st cs rest hq
  constructor
  · intro hdrop
    rw [scan, if_neg (by rw [hq]; decide), hdrop]
    simp only [show isDecimalChar lbraceChar = false from rfl,
      show isNameChar lbraceChar = false from rfl,
      show (lbraceChar = quoteChar) = False from eq_false (by decide),
      show (lbraceChar = ',') = False from eq_false (by decide),
      show (lbraceChar = '=') = False from eq_false (by decide),
      show (lbraceChar = '@') = False from eq_false (by decide),
      Bool.false_eq_true, if_false, eq_self_iff_true, if_true]
    by_cases hprev : st.prev = .assign ∨ st.prev = .lbrace
    · rw [if_pos hprev]
      cases hss : st.scanStrings with
      | true =>
        simp only [if_true]
        exact ⟨_, rfl, fun _ => by simp [hss], fun hn => absurd hprev hn⟩
      | false =>
        simp only [Bool.false_eq_true, if_false]
        refine ⟨_, rfl, fun _ => ?_, fun hn => absurd hprev hn⟩
        simp [hss]
    · rw [if_neg hprev]
      exact ⟨_, rfl, fun hp => absurd hp hprev, fun _ => ⟨rfl, hq⟩⟩
  · intro hdrop
    rw [scan, if_neg (by rw [hq]; decide), hdrop]
    simp only [show isDecimalChar quoteChar = false from rfl,
      show isNameChar quoteChar = false from rfl,
      Bool.false_eq_true, if_false, eq_self_iff_true, if_true]
    cases hss : st.scanStrings with
    | true =>
      simp only [if_true]
      exact ⟨_, rfl, by simp [hss]⟩
    | false =>
      simp only [Bool.false_eq_true, if_false]
      exact ⟨_, rfl, by simp [hss]⟩

/-- C4 witness: after `=`, a `{` opens an opaque brace string (string
tokenization off), while after an identifier it is a structural left
brace. -/
theorem c4_witness :
    (∃ r, scan ⟨.assign, noQuoteCh, 0, false⟩ [lbraceChar, 'a', rbraceChar] = some r ∧
       (((Tok.assign = .assign ∨ Tok.assign = .lbrace) →
         (if false then r.tok = .stringLBrace ∧ r.state.endQuoteCh = rbraceChar
          else r.tok = .braceString)) ∧
        (¬(Tok.assign = .assign ∨ Tok.assign = .lbrace) →
         r.tok = .lbrace ∧ r.state.endQuoteCh = noQuoteCh))) ∧
    (∃ r, scan ⟨.ident, noQuoteCh, 0, true⟩ [quoteChar, 'a'] = some r ∧
       (if true then r.tok = .doubleQuote ∧ r.state.endQuoteCh = quoteChar
        else r.tok = .stringTok)) :=
  ⟨(c4_brace_quote_heuristic ⟨.assign, noQuoteCh, 0, false⟩ [lbraceChar, 'a', rbraceChar]
      ['a', rbraceChar] rfl).1 rfl,
   (c4_brace_quote_heuristic ⟨.ident, noQuoteCh, 0, true⟩ [quoteChar, 'a'] ['a'] rfl).2 rfl⟩

end Bibtex

namespace Bibtex

/-- C6: inside a `BibEntry` body an `Ident`-or-`Number` token followed by
`=` is a tag name and must start with a letter — otherwise the parser
records "tag keys must not start with a number" — while a token followed by
`,` is a citation key: the first becomes `BibDecl.Key`, later ones go to
`ExtraKeys`.  End to end, `@article {111, 111 = {foo}}` scans and parses to
the error and `@article {111, key = {foo}}` parses cleanly with primary key
`"111"`. -/
theorem c6_key_tag_classification :
    (∀ (kt1 kt2 : Tok) (k t v : String),
      (kt1 = .ident ∨ kt1 = .number) → (kt2 = .ident ∨ kt2 = .number) →
      (fun r => (r.1.key, r.1.extraKeys, r.1.tags, r.2.errors))
        (parseBibDeclRun [(.bibEntry, "@article"), (.lbrace, ""), (kt1, k), (.comma, ""),
          (kt2, t), (.assign, ""), (.braceString, v), (.rbrace, "")])
      = (some k, [], [(toLowerString t, t, .unparsedText .braceString v)],
         if isValidTagName t then [] else [tagKeyErr])) ∧
    (∀ (kt1 kt2 : Tok) (k1 k2 : String),
      (kt1 = .ident ∨ kt1 = .number) → (kt2 = .ident ∨ kt2 = .number) →
      (fun r => (r.1.key, r.1.extraKeys, r.2.errors))
        (parseBibDeclRun [(.bibEntry, "@article"), (.lbrace, ""), (kt1, k1), (.comma, ""),
          (kt2, k2), (.comma, ""), (.rbrace, "")])
      = (some k1, [k2], [])) ∧
    ((tokenize "@article \x7b111, 111 = \x7bfoo\x7d\x7d").map
        (fun p => ((parseBibDeclRun p.1).1.key, (parseBibDeclRun p.1).2.errors, p.2))
      = some (some "111", [tagKeyErr], [])) ∧
    ((tokenize "@article \x7b111, key = \x7bfoo\x7d\x7d").map
        (fun p => ((parseBibDeclRun p.1).1.key, (parseBibDeclRun p.1).2.errors, p.2))
      = some (some "111", [], [])) := by
  refine ⟨?_, ?_, by decide, by decide⟩
  · intro kt1 kt2 k t v h1 h2
    rcases h1 with rfl | rfl <;> rcases h2 with rfl | rfl <;>
      cases hv : isValidTagName t <;>
        simp [parseBibDeclRun, parseBibDecl, bibKeyLoop, parseIdent, parseExpr,
          parseBasicLit, parseURLStringLiteral, expectTok, expectOneBrace, expectCloser,
          expectOptional, PState.adv, PState.adderr, PState.cur, PState.tok, PState.lit,
          PState.errorExpected, Tok.isLiteral, Tok.isStringLiteral, storedTagValue,
          fixUpFields, hv]
  · intro kt1 kt2 k1 k2 h1 h2
    rcases h1 with rfl | rfl <;> rcases h2 with rfl | rfl <;>
      simp [parseBibDeclRun, parseBibDecl, bibKeyLoop, parseIdent, expectTok,
        expectOneBrace, expectCloser, expectOptional, PState.adv, PState.adderr,
        PState.cur, PState.tok, PState.lit, PState.errorExpected]

/-- C6 witness: the general classification applied at concrete keys — the
all-digit citation key `"111"` with tag name `"t2x"` (valid) and with tag
name `"9t"` (records the error). -/
theorem c6_witness :
    ((fun r => (r.1.key, r.1.extraKeys, r.1.tags, r.2.errors))
        (parseBibDeclRun [(.bibEntry, "@article"), (.lbrace, ""), (.number, "111"),
          (.comma, ""), (.ident, "t2x"), (.assign, ""), (.braceString, "foo"),
          (.rbrace, "")])
      = (some "111", [], [(toLowerString "t2x", "t2x", .unparsedText .braceString "foo")],
         if isValidTagName "t2x" then [] else [tagKeyErr])) ∧
    ((fun r => (r.1.key, r.1.extraKeys, r.1.tags, r.2.errors))
        (parseBibDeclRun [(.bibEntry, "@article"), (.lbrace, ""), (.number, "111"),
          (.comma, ""), (.number, "9t"), (.assign, ""), (.braceString, "foo"),
          (.rbrace, "")])
      = (some "111", [], [(toLowerString "9t", "9t", .unparsedText .braceString "foo")],
         if isValidTagName "9t" then [] else [tagKeyErr])) :=
  ⟨c6_key_tag_classification.1 .number .ident "111" "t2x" "foo" (Or.inr rfl) (Or.inl rfl),
   c6_key_tag_classification.1 .number .number "111" "9t" "foo" (Or.inr rfl) (Or.inr rfl)⟩

end Bibtex

namespace Bibtex

theorem PState.adv_errors (st : PState) : st.adv.errors = st.errors := rfl

theorem PState.adv_toks (st : PState) : st.adv.toks <:+ st.toks := List.tail_suffix _

theorem PState.adderr_prefix (st : PState) (m : String) :
    st.errors <+: (st.adderr m).errors := List.prefix_append _ _

theorem PState.adderr_toks (st : PState) (m : String) : (st.adderr m).toks = st.toks := rfl

theorem PState.errorExpected_prefix (st : PState) (m : String) :
    st.errors <+: (st.errorExpected m).errors := List.prefix_append _ _

theorem PState.errorExpected_toks (st : PState) (m : String) :
    (st.errorExpected m).toks = st.toks := rfl

/-- A list squeezed between two prefixes of equal endpoints. -/
theorem prefix_squeeze {a m f : List String} (h1 : a <+: m) (h2 : m <+: f) (h3 : f = a) :
    m = a :=
  (h3 ▸ h2).eq_of_length_le h1.length_le

theorem expectTok_mono (t : Tok) (st : PState) :
    st.errors <+: (expectTok t st).errors ∧ (expectTok t st).toks <:+ st.toks := by
  unfold expectTok
  split
  · exact ⟨List.prefix_refl _, PState.adv_toks st⟩
  · exact ⟨PState.errorExpected_prefix st _, PState.adv_toks st⟩

theorem collectURL_mono :
    ∀ (fuel : Nat) (st : PState) (acc : String),
      st.errors <+: (collectURL fuel st acc).2.errors ∧
      (collectURL fuel st acc).2.toks <:+ st.toks := by
  intro fuel
  induction fuel with
  | zero => intro st acc; exact ⟨PState.adderr_prefix st _, List.suffix_refl _⟩
  | succ fuel ih =>
    intro st acc
    rw [collectURL]
    split
    · exact ⟨List.prefix_refl _, List.suffix_refl _⟩
    · obtain ⟨h1, h2⟩ := ih st.adv (acc ++ st.lit)
      exact ⟨h1, h2.trans (PState.adv_toks st)⟩

theorem parseMacroURL_mono (fuel : Nat) (name : String) (st : PState) :
    st.errors <+: (parseMacroURL fuel name st).2.errors ∧
    (parseMacroURL fuel name st).2.toks <:+ st.toks := by
  unfold parseMacroURL
  obtain ⟨e1, t1⟩ := expectTok_mono .stringLBrace st.adv
  obtain ⟨e2, t2⟩ := collectURL_mono fuel (expectTok .stringLBrace st.adv) ""
  rcases hc : collectURL fuel (expectTok .stringLBrace st.adv) "" with ⟨sb, st2⟩
  rw [hc] at e2 t2
  simp only [hc]
  have epre : st.errors <+: st2.errors := e1.trans e2
  have tsuf : st2.toks <:+ st.toks := (t2.trans t1).trans (PState.adv_toks st)
  constructor
  · refine epre.trans ?_
    split
    · split
      · exact List.prefix_refl _
      · exact PState.errorExpected_prefix st2.adv _
    · split
      · exact List.prefix_refl _
      · exact PState.errorExpected_prefix st2 _
  · split
    · split
      · exact (PState.adv_toks st2).trans tsuf
      · exact (PState.adv_toks st2).trans tsuf
    · split
      · exact tsuf
      · exact tsuf

end Bibtex

namespace Bibtex

theorem append_singleton_ne (l : List String) (m : String) : l ++ [m] ≠ l := by simp

theorem noIllegal_tok {st : PState} (h : noIllegal st.toks) : st.tok ≠ Tok.illegal := by
  cases htoks : st.toks with
  | nil => simp [PState.tok, PState.cur, htoks]
  | cons p rest =>
    have hm := h p (htoks ▸ List.mem_cons_self p rest)
    simpa [PState.tok, PState.cur, htoks] using hm

theorem noIllegal_suffix {t1 t2 : List (Tok × String)} (h : t2 <:+ t1) (hn : noIllegal t1) :
    noIllegal t2 :=
  fun p hp => hn p (h.subset hp)

theorem parsedTextInvList_append (d : Nat) (vs : List Expr) (v : Expr) :
    parsedTextInvList d (vs ++ [v]) =
      (parsedTextInvList d vs && (isTextFamily v || parsedTextInv d v)) := by
  induction vs with
  | nil => simp [parsedTextInvList]
  | cons x rest ih => simp [parsedTextInvList, ih, Bool.and_assoc]

theorem parseMacroURL_textFamily (fuel : Nat) (name : String) (st : PState) :
    isTextFamily (parseMacroURL fuel name st).1 = true := by
  unfold parseMacroURL
  rcases hc : collectURL fuel (expectTok .stringLBrace st.adv) "" with ⟨sb, st2⟩
  simp only [hc]
  rfl

end Bibtex

namespace Bibtex


theorem parseTextLoop_succ (fuel : Nat) (d : Nat) (st : PState) (values : List Expr) :
    parseTextLoop (fuel + 1) d st values =
      if st.tok = Tok.stringRBrace then (Except.ok values, st)
      else
        match parseText fuel (d + 1) st with
        | (.badExpr, st') => (Except.error .badExpr, st')
        | (child, st') => parseTextLoop fuel d st' (values ++ [child]) := rfl

theorem parseText_mono_inv :
    ∀ fuel : Nat,
      (∀ (d : Nat) (st : PState),
        (st.errors <+: (parseText fuel d st).2.errors ∧
         (parseText fuel d st).2.toks <:+ st.toks) ∧
        (noIllegal st.toks → (parseText fuel d st).2.errors = st.errors →
          isTextFamily (parseText fuel d st).1 = true ∨
          parsedTextInv d (parseText fuel d st).1 = true)) ∧
      (∀ (d : Nat) (st : PState) (values : List Expr),
        (st.errors <+: (parseTextLoop fuel d st values).2.errors ∧
         (parseTextLoop fuel d st values).2.toks <:+ st.toks) ∧
        (noIllegal st.toks → (parseTextLoop fuel d st values).2.errors = st.errors →
          parsedTextInvList (d + 1) values = true →
          ∃ vals, (parseTextLoop fuel d st values).1 = Except.ok vals ∧
            parsedTextInvList (d + 1) vals = true)) := by
  intro fuel
  induction fuel with
  | zero =>
    constructor
    · intro d st
      exact ⟨⟨PState.adderr_prefix st _, List.suffix_refl _⟩,
        fun _ heq => absurd heq (append_singleton_ne _ _)⟩
    · intro d st values
      exact ⟨⟨PState.adderr_prefix st _, List.suffix_refl _⟩,
        fun _ heq _ => absurd heq (append_singleton_ne _ _)⟩
  | succ fuel ih =>
    obtain ⟨ihP, ihQ⟩ := ih
    constructor
    · intro d st
      rw [parseText.eq_def]
      cases htok : st.tok
      all_goals simp only [htok]
      case illegal =>
        exact ⟨⟨List.prefix_refl _, PState.adv_toks st⟩,
          fun hni _ => absurd htok (noIllegal_tok hni)⟩
      case stringMath =>
        exact ⟨⟨List.prefix_refl _, PState.adv_toks st⟩, fun _ _ => Or.inl rfl⟩
      case stringHyphen =>
        exact ⟨⟨List.prefix_refl _, PState.adv_toks st⟩, fun _ _ => Or.inl rfl⟩
      case stringNBSP =>
        exact ⟨⟨List.prefix_refl _, PState.adv_toks st⟩, fun _ _ => Or.inl rfl⟩
      case stringContents =>
        exact ⟨⟨List.prefix_refl _, PState.adv_toks st⟩, fun _ _ => Or.inl rfl⟩
      case stringSpace =>
        exact ⟨⟨List.prefix_refl _, PState.adv_toks st⟩, fun _ _ => Or.inl rfl⟩
      case stringComma =>
        exact ⟨⟨List.prefix_refl _, PState.adv_toks st⟩, fun _ _ => Or.inl rfl⟩
      case stringBackslash =>
        exact ⟨⟨List.prefix_refl _, PState.adv_toks st⟩, fun _ _ => Or.inl rfl⟩
      case stringMacroTok =>
        split
        · rcases hm : parseMacroURL fuel st.lit st with ⟨m, st'⟩
          obtain ⟨he, ht⟩ := parseMacroURL_mono fuel st.lit st
          have htf := parseMacroURL_textFamily fuel st.lit st
          rw [hm] at he ht htf
          simp only [hm]
          exact ⟨⟨he, (PState.adv_toks st').trans ht⟩, fun _ _ => Or.inl htf⟩
        · exact ⟨⟨List.prefix_refl _, PState.adv_toks st⟩, fun _ _ => Or.inl rfl⟩
      case stringLBrace =>
        obtain ⟨⟨le, lt⟩, linv⟩ := ihQ d st.adv []
        rcases hloop : parseTextLoop fuel d st.adv [] with ⟨res, st2⟩
        rw [hloop] at le lt linv
        cases res with
        | error bad =>
          simp only [hloop]
          refine ⟨⟨le, (PState.adv_toks st2).trans (lt.trans (PState.adv_toks st))⟩,
            fun hni heq => ?_⟩
          have heq' : st2.errors = st.adv.errors := heq
          obtain ⟨vals, hok, -⟩ := linv (noIllegal_suffix (PState.adv_toks st) hni) heq' rfl
          exact absurd hok (by simp)
        | ok values =>
          simp only [hloop]
          refine ⟨⟨le, (PState.adv_toks st2).trans (lt.trans (PState.adv_toks st))⟩,
            fun hni heq => Or.inr ?_⟩
          have heq' : st2.errors = st.adv.errors := heq
          obtain ⟨vals, hok, hv⟩ := linv (noIllegal_suffix (PState.adv_toks st) hni) heq' rfl
          have hveq : values = vals := by simpa using hok
          simp [parsedTextInv, hveq, hv]
      all_goals
        exact ⟨⟨PState.adderr_prefix st _, PState.adv_toks _⟩,
          fun _ heq => absurd heq (append_singleton_ne _ _)⟩
    · intro d st values
      rw [parseTextLoop_succ]
      by_cases hrb : st.tok = Tok.stringRBrace
      · rw [if_pos hrb]
        exact ⟨⟨List.prefix_refl _, List.suffix_refl _⟩,
          fun _ _ hvals => ⟨values, rfl, hvals⟩⟩
      · rw [if_neg hrb]
        obtain ⟨⟨pe, pt⟩, pinv⟩ := ihP (d + 1) st
        split
        next x st' heq =>
          rw [heq] at pe pt pinv
          refine ⟨⟨pe, pt⟩, fun hni herr => ?_⟩
          rcases pinv hni herr with h | h <;> simp [isTextFamily, parsedTextInv] at h
        next x child st' hnb heq =>
          rw [heq] at pe pt pinv
          obtain ⟨⟨qe, qt⟩, qinv⟩ := ihQ d st' (values ++ [child])
          refine ⟨⟨pe.trans qe, qt.trans pt⟩, fun hni herr hvals => ?_⟩
          have hse : st'.errors = st.errors := prefix_squeeze pe qe herr
          have hni' : noIllegal st'.toks := noIllegal_suffix pt hni
          have hchild := pinv hni hse
          have hcb : (isTextFamily child || parsedTextInv (d + 1) child) = true := by
            rcases hchild with h | h <;> simp [h]
          have herr' : (parseTextLoop fuel d st' (values ++ [child])).2.errors = st'.errors :=
            herr.trans hse.symm
          have hvals' : parsedTextInvList (d + 1) (values ++ [child]) = true := by
            rw [parsedTextInvList_append, hvals, hcb]
            rfl
          exact qinv hni' herr' hvals'



theorem parseQuoteLoop_succ (fuel : Nat) (st : PState) (values : List Expr) :
    parseQuoteLoop (fuel + 1) st values =
      if st.tok = Tok.doubleQuote then (Except.ok values, st)
      else if st.tok = Tok.eof then (Except.error .badExpr, st.errorExpected "double quote")
      else parseQuoteLoop fuel (parseText fuel 1 st).2 (values ++ [(parseText fuel 1 st).1]) :=
  rfl

theorem parseQuoteLoop_mono_inv :
    ∀ (fuel : Nat) (st : PState) (values : List Expr),
      (st.errors <+: (parseQuoteLoop fuel st values).2.errors ∧
       (parseQuoteLoop fuel st values).2.toks <:+ st.toks) ∧
      (noIllegal st.toks → (parseQuoteLoop fuel st values).2.errors = st.errors →
        parsedTextInvList 1 values = true →
        ∃ vals, (parseQuoteLoop fuel st values).1 = Except.ok vals ∧
          parsedTextInvList 1 vals = true) := by
  intro fuel
  induction fuel with
  | zero =>
    intro st values
    exact ⟨⟨PState.adderr_prefix st _, List.suffix_refl _⟩,
      fun _ heq _ => absurd heq (append_singleton_ne _ _)⟩
  | succ fuel ih =>
    intro st values
    rw [parseQuoteLoop_succ]
    by_cases hdq : st.tok = Tok.doubleQuote
    · rw [if_pos hdq]
      exact ⟨⟨List.prefix_refl _, List.suffix_refl _⟩, fun _ _ hvals => ⟨values, rfl, hvals⟩⟩
    · rw [if_neg hdq]
      by_cases heof : st.tok = Tok.eof
      · rw [if_pos heof]
        exact ⟨⟨PState.errorExpected_prefix st _, List.suffix_refl _⟩,
          fun _ heq _ => absurd heq (append_singleton_ne _ _)⟩
      · rw [if_neg heof]
        obtain ⟨⟨pe, pt⟩, pinv⟩ := (parseText_mono_inv fuel).1 1 st
        obtain ⟨⟨qe, qt⟩, qinv⟩ := ih (parseText fuel 1 st).2 (values ++ [(parseText fuel 1 st).1])
        refine ⟨⟨pe.trans qe, qt.trans pt⟩, fun hni herr hvals => ?_⟩
        have hse : (parseText fuel 1 st).2.errors = st.errors := prefix_squeeze pe qe herr
        have hni' : noIllegal (parseText fuel 1 st).2.toks := noIllegal_suffix pt hni
        have hchild := pinv hni hse
        have hcb : (isTextFamily (parseText fuel 1 st).1 ||
            parsedTextInv 1 (parseText fuel 1 st).1) = true := by
          rcases hchild with h | h <;> simp [h]
        have herr' : (parseQuoteLoop fuel (parseText fuel 1 st).2
            (values ++ [(parseText fuel 1 st).1])).2.errors = (parseText fuel 1 st).2.errors :=
          herr.trans hse.symm
        have hvals' : parsedTextInvList 1 (values ++ [(parseText fuel 1 st).1]) = true := by
          rw [parsedTextInvList_append, hvals, hcb]
          rfl
        exact qinv hni' herr' hvals'

theorem parseStringLiteral_inv (fuel : Nat) (st : PState) (hni : noIllegal st.toks)
    (herr : (parseStringLiteral fuel st).2.errors = st.errors) :
    isTextFamily (parseStringLiteral fuel st).1 = true ∨
    parsedTextInv 0 (parseStringLiteral fuel st).1 = true := by
  cases htok : st.tok
  all_goals rw [parseStringLiteral.eq_def] at herr ⊢
  all_goals simp only [htok] at herr ⊢
  case doubleQuote =>
    obtain ⟨⟨qe, qt⟩, qinv⟩ := parseQuoteLoop_mono_inv fuel st.adv []
    rcases hq : parseQuoteLoop fuel st.adv [] with ⟨res, st'⟩
    cases res with
    | error bad =>
      rw [hq] at qinv herr
      have herr2 : st'.errors = st.adv.errors := herr
      obtain ⟨vals, hok, -⟩ := qinv (noIllegal_suffix (PState.adv_toks st) hni) herr2 rfl
      simp at hok
    | ok values =>
      rw [hq] at qinv herr
      have herr2 : st'.errors = st.adv.errors := herr
      obtain ⟨vals, hok, hv⟩ := qinv (noIllegal_suffix (PState.adv_toks st) hni) herr2 rfl
      have hveq : values = vals := by simpa using hok
      right
      show parsedTextInv 0 (Expr.parsedText 0 0 .quoteDelim values 0) = true
      simp [parsedTextInv, hveq, hv]
  case stringLBrace =>
    exact ((parseText_mono_inv fuel).1 0 st).2 hni herr
  all_goals exact absurd herr (append_singleton_ne _ _)

def c5Toks : List (Tok × String) :=
  [(Tok.stringLBrace, ""), (Tok.stringContents, "a"), (Tok.stringSpace, " "),
   (Tok.stringLBrace, ""), (Tok.stringContents, "b"), (Tok.stringRBrace, ""),
   (Tok.stringRBrace, ""), (Tok.eof, "")]

/-- **C5**: for every parse of a string value that finishes without recording
any parser error on a token stream free of `Illegal` tokens, the resulting
expression — whether produced by `parseText` at depth `d` or by
`parseStringLiteral` at the outermost depth `0` — is either a Text-family
node or a `ParsedText` whose `Depth` field equals the depth at which it was
parsed and each of whose direct children is, recursively, a Text-family node
or a nested `ParsedText` at depth one greater. -/
theorem c5_depth_invariant :
    (∀ (fuel d : Nat) (st : PState), noIllegal st.toks →
      (parseText fuel d st).2.errors = st.errors →
      isTextFamily (parseText fuel d st).1 = true ∨
      parsedTextInv d (parseText fuel d st).1 = true) ∧
    (∀ (fuel : Nat) (st : PState), noIllegal st.toks →
      (parseStringLiteral fuel st).2.errors = st.errors →
      isTextFamily (parseStringLiteral fuel st).1 = true ∨
      parsedTextInv 0 (parseStringLiteral fuel st).1 = true) :=
  ⟨fun fuel d st hni herr => ((parseText_mono_inv fuel).1 d st).2 hni herr,
   fun fuel st hni herr => parseStringLiteral_inv fuel st hni herr⟩

/-- `c5_depth_invariant` applied to the concrete token stream of the braced
string value `\x7ba \x7bb\x7d\x7d`. -/
theorem c5_witness :
    isTextFamily (parseStringLiteral 8 ⟨c5Toks, []⟩).1 = true ∨
    parsedTextInv 0 (parseStringLiteral 8 ⟨c5Toks, []⟩).1 = true :=
  c5_depth_invariant.2 8 ⟨c5Toks, []⟩ (by unfold noIllegal c5Toks; decide) rfl

end Bibtex
